/-
Verification of the Fourier-epicycles animation core (Real-Fourier-Series).

This file gives a shallow embedding, over exact real and complex numbers,
of the numeric/geometric engine found in `animation/circles.py` (classes
`Circles`, `FourierData`, `VerticalRescaler`) and of the expression-side
helpers in `functions.py` (`multiplies_var`, `FunctionRtoR`,
`get_default_values`) together with the function-submission path of
`animation/animation.py` (`FourierAnimation.set_function`).

Floating-point arithmetic of the Python source is modelled by exact ℝ/ℂ
arithmetic; numpy arrays are modelled by functions out of ℕ (with explicit
length bounds in the statements) or by lists where the claim needs them.
Sympy expressions are modelled by a flattened abstract syntax tree; the
pieces of sympy behaviour that the source relies on (`free_symbols`,
`is_Pow`, `expr.args`, the subset semantics of `Mul.has` that the doctests
of `multiplies_var` force, and the automatic merging of same-base powers
when two subexpressions are multiplied) are modelled explicitly.
-/
import Mathlib

namespace RealFourier

/-! ### Circles resolution/point-count state (`Circles` + `FourierData`)

Only the `resolution` field of `Circles` and the `n` field of its
`FourierData` are relevant to the resolution invariant; the remaining
fields (sample grid, coefficient buffers, circle buffers) are neither read
nor written by the guard in `set_number_of_circles`, and none of the
operations below writes `resolution` except `set_number_of_circles`. -/

/-- State relevant to the resolution invariant: `resolution` is
`Circles.resolution`, `n` is `FourierData.n` (the sample count). -/
structure CState where
  resolution : Nat
  n : Nat
deriving DecidableEq, Repr

/-- Source `Circles.set_number_of_circles`:
`if (self._data.n//2+1) >= resolution > 0: self.resolution = resolution`. -/
def setNumberOfCircles (s : CState) (r : Nat) : CState :=
  if s.n / 2 + 1 ≥ r ∧ r > 0 then { s with resolution := r } else s

/-- Source `Circles.set_number_of_points` → `FourierData.set_number_of_points`:
stores the new sample count and recomputes the grid and coefficients; the
`resolution` field is left untouched. -/
def csSetNumberOfPoints (s : CState) (m : Nat) : CState :=
  { s with n := m }

/-- Source `Circles.set_function`: replaces the function and recomputes
coefficients; neither `resolution` nor `n` changes. -/
def csSetFunction (s : CState) : CState := s

/-- Source `Circles.set_params`: recomputes coefficients with new parameter
values; neither `resolution` nor `n` changes. -/
def csSetParams (s : CState) : CState := s

/-- Source `Circles.set_period` → `FourierData.set_period`: changes the grid
start/period and recomputes; `self.n` is read but not written, and
`resolution` is untouched. -/
def csSetPeriod (s : CState) : CState := s

/-- Source `Circles.update_plots`: rewrites the circle point buffer only;
neither `resolution` nor `n` changes. -/
def csUpdate (s : CState) : CState := s

/-- The resolution invariant claimed by the spec:
`1 ≤ resolution ≤ M` with `M = n//2 + 1`. -/
def CInv (s : CState) : Prop :=
  1 ≤ s.resolution ∧ s.resolution ≤ s.n / 2 + 1

instance (s : CState) : Decidable (CInv s) := by
  unfold CInv; infer_instance

/-! ### VerticalRescaler -/

/-- State of `VerticalRescaler` after `set_scale_values`: the array minimum
and maximum and the target plot range. -/
structure VRState where
  yMin : ℝ
  yMax : ℝ
  plotLo : ℝ
  plotHi : ℝ

/-- Source `np.amin` over a nonempty list (the empty case never occurs in the
source; we default it to `0`). -/
def npAMin (l : List ℝ) : ℝ :=
  match l with
  | [] => 0
  | x :: xs => xs.foldl min x

/-- Source `np.amax` over a nonempty list. -/
def npAMax (l : List ℝ) : ℝ :=
  match l with
  | [] => 0
  | x :: xs => xs.foldl max x

/-- Source `VerticalRescaler.set_scale_values`. -/
def setScaleValues (ys : List ℝ) (lo hi : ℝ) : VRState :=
  { yMin := npAMin ys, yMax := npAMax ys, plotLo := lo, plotHi := hi }

/-- Source `self._y_diff = self._y_max - self._y_min`. -/
def VRState.yDiff (s : VRState) : ℝ := s.yMax - s.yMin

/-- Source `VerticalRescaler.in_bounds`:
`plot_range[0] <= y_min <= plot_range[1] and plot_range[0] <= y_max <= plot_range[1]`. -/
def VRState.inBounds (s : VRState) : Prop :=
  (s.plotLo ≤ s.yMin ∧ s.yMin ≤ s.plotHi) ∧
    (s.plotLo ≤ s.yMax ∧ s.yMax ≤ s.plotHi)

/-- Source `VerticalRescaler.__call__` applied to one array entry:
`(plot_range_diff)*((y - y_min)/y_diff) + plot_range[0]`. Division by a
zero span is modelled by Lean's `x / 0 = 0` convention; the point of the
claims below is only whether the zero-denominator division is reached. -/
noncomputable def VRState.rescale (s : VRState) (y : ℝ) : ℝ :=
  (s.plotHi - s.plotLo) * ((y - s.yMin) / s.yDiff) + s.plotLo

open Classical in
/-- Source `FourierData._update_data`, rescaling phase:
`if not self._rescale.in_bounds(): self.x = self._rescale(self.x)`. -/
noncomputable def updateX (ys : List ℝ) (lo hi : ℝ) : List ℝ :=
  if (setScaleValues ys lo hi).inBounds then ys
  else ys.map (setScaleValues ys lo hi).rescale

/-! ### FourierData coefficient pipeline

`FourierData.__init__` fixes, once and for all, `self.f = np.fft.rfftfreq(256)`
(the frequencies `k/256` for `k = 0..128`) and
`self._sort_arr = np.argsort(self.f)`; neither is ever recomputed by
`set_number_of_points`/`set_period`.  `np.argsort` over the pairwise
distinct, ascending frequency values is the stable sort of the index list
by frequency, modelled here with `List.insertionSort`.  In `_update_data`
the amplitudes are `2*np.fft.rfft(x)/n`, permuted through `_sort_arr`,
with `a[0] *= 0.5` applied last.  Indexing `_sort_arr[i]` for `i ≥ 129`
raises in numpy; the theorems therefore carry the bound `n ≤ 256` under
which every access is in range and the permutation is the identity. -/

/-- Source `np.fft.rfftfreq(256)`: the list `[0, 1/256, ..., 128/256]`. -/
def rfftFreq256 : List ℚ :=
  (List.range 129).map (fun k : ℕ => (k : ℚ) / 256)

/-- Source `self._sort_arr = np.argsort(self.f)`: the index list `0..128`
sorted by the corresponding frequency value (a stable sort, which agrees
with any comparison sort here because the keys are pairwise distinct). -/
def sortArr256 : List ℕ :=
  List.insertionSort (fun i j => rfftFreq256.getD i 0 ≤ rfftFreq256.getD j 0)
    (List.range 129)

/-- Access `self._sort_arr[i]` (in range for `i < 129`). -/
def sortIdx (i : ℕ) : ℕ := sortArr256.getD i 0

/-- Source `self.f = np.array([self.f[self._sort_arr[i]] ...])`: the stored,
sorted frequency array (exact rational values). -/
def fStoredQ (i : ℕ) : ℚ := rfftFreq256.getD (sortIdx i) 0

/-- The stored frequency array as real numbers, as consumed by
`Circles.update_plots`. -/
noncomputable def fStored (i : ℕ) : ℝ := (fStoredQ i : ℝ)

/-- Source `np.fft.rfft(self.x)[k]`: the one-sided discrete Fourier
transform bin `k` of the sampled real signal `x` of length `n`,
`X[k] = Σ_m x[m]·exp(-2πi·k·m/n)`. -/
noncomputable def rfftCoeff (n : ℕ) (x : ℕ → ℝ) (k : ℕ) : ℂ :=
  ∑ m in Finset.range n, (x m : ℂ) *
    Complex.exp (-2 * (Real.pi : ℂ) * Complex.I * (k : ℂ) * (m : ℂ) / (n : ℂ))

/-- Source `self.a = 2*self._original_amplitudes/self.n`. -/
noncomputable def ampsRaw (n : ℕ) (x : ℕ → ℝ) (k : ℕ) : ℂ :=
  2 * rfftCoeff n x k / (n : ℂ)

/-- Source `self.a = np.array([self.a[self._sort_arr[i]] ...])`. -/
noncomputable def ampsSorted (n : ℕ) (x : ℕ → ℝ) (k : ℕ) : ℂ :=
  ampsRaw n x (sortIdx k)

/-- Source `self.a[0] *= 0.5` applied after the sort: the amplitude array
finally stored in `self.a` and read back by `get_amplitudes`. -/
noncomputable def ampsFinal (n : ℕ) (x : ℕ → ℝ) (k : ℕ) : ℂ :=
  if k = 0 then ampsSorted n x 0 * (1 / 2) else ampsSorted n x k

/-! ### Circles geometry (`Circles.update_plots` / `Circles._draw_circle`)

`update_plots(i)` fills the flat complex buffer `self._circles` of length
`(pts_per_circle+1)*129` in blocks of `pts_per_circle+1 = 51` cells per
harmonic: cell `j*51` holds the chain vertex of harmonic `j` and cells
`j*51+m+1` (for `m < 50`) hold its circle outline; after block
`resolution-1` every remaining cell is frozen to the value at index
`stop_index = resolution*51 - 1`.  Harmonic `j ≥ 1` reads its centre from
cell `j*51 - 1`, the **last outline cell of harmonic `j-1`**, written
earlier in the same call. -/

/-- Source `self._pts_per_circle = 50`. -/
def ptsPerCircle : ℕ := 50

/-- Source `self._gen_circle[m] = np.exp(2*1.0j*np.pi*((m+1)/self._pts_per_circle))`. -/
noncomputable def genCircle (m : ℕ) : ℂ :=
  Complex.exp (2 * Complex.I * (Real.pi : ℂ) *
    ((((m : ℝ) + 1) / (ptsPerCircle : ℝ) : ℝ) : ℂ))

/-- Source `amplitude = np.exp(-2*np.pi*i*1.0j*f[j])*a[j]`: the rotated
amplitude of harmonic `j` at rotation counter `i`. -/
noncomputable def rotAmp (a : ℕ → ℂ) (f : ℕ → ℝ) (i : ℤ) (j : ℕ) : ℂ :=
  Complex.exp (-2 * (Real.pi : ℂ) * (i : ℂ) * Complex.I * ((f j : ℝ) : ℂ)) * a j

open Classical in
/-- Source `Circles._draw_circle`, one outline cell: collapse to
`centre + amp` when `np.real(amp*np.conj(amp)) < self._EPSILON`, otherwise
`centre + amp*self._gen_circle[m]`. -/
noncomputable def drawCirclePoint (ε : ℝ) (centre amp : ℂ) (m : ℕ) : ℂ :=
  if (amp * (starRingEnd ℂ) amp).re < ε then centre + amp
  else centre + amp * genCircle m

/-- Outline cell `m` of harmonic `j` as written by `update_plots`: harmonic 0
writes `a[0]*np.exp(0*1.0j*np.pi*((m+1)/50))` (note the `0*` factor in the
source), harmonic `j+1` calls `_draw_circle` centred on the last outline
cell of harmonic `j`. -/
noncomputable def outline (a : ℕ → ℂ) (f : ℕ → ℝ) (i : ℤ) (ε : ℝ) :
    ℕ → ℕ → ℂ
  | 0, m =>
      a 0 * Complex.exp (0 * Complex.I * (Real.pi : ℂ) *
        ((((m : ℝ) + 1) / (ptsPerCircle : ℝ) : ℝ) : ℂ))
  | j + 1, m =>
      drawCirclePoint ε (outline a f i ε j (ptsPerCircle - 1))
        (rotAmp a f i (j + 1)) m

/-- Chain vertex of harmonic `j` as written by `update_plots`:
`circles[0] = a[0]*np.exp(-2*np.pi*i*1.0j*f[0])` and
`circles[j*51] = amplitude + circles[j*51 - 1]`. -/
noncomputable def vertex (a : ℕ → ℂ) (f : ℕ → ℝ) (i : ℤ) (ε : ℝ) : ℕ → ℂ
  | 0 =>
      a 0 * Complex.exp (-2 * (Real.pi : ℂ) * (i : ℂ) * Complex.I *
        ((f 0 : ℝ) : ℂ))
  | j + 1 => rotAmp a f i (j + 1) + outline a f i ε j (ptsPerCircle - 1)

/-- Length of `self._circles`, allocated in `Circles.__init__` with the
initial resolution `256//2 + 1 = 129`. -/
def bufLen : ℕ := (ptsPerCircle + 1) * 129

/-- Contents of `self._circles` after `update_plots(i)` with the given
resolution: blocks of 51 cells per harmonic below
`stop_index = resolution*51 - 1`, all later cells frozen to the value at
`stop_index`. -/
noncomputable def circlesBuf (a : ℕ → ℂ) (f : ℕ → ℝ) (i : ℤ) (ε : ℝ)
    (res idx : ℕ) : ℂ :=
  if idx < res * (ptsPerCircle + 1) - 1 then
    (if idx % (ptsPerCircle + 1) = 0 then
      vertex a f i ε (idx / (ptsPerCircle + 1))
    else
      outline a f i ε (idx / (ptsPerCircle + 1)) (idx % (ptsPerCircle + 1) - 1))
  else outline a f i ε (res - 1) (ptsPerCircle - 1)

/-- Source `Circles.get_end_point`: `self._circles[-1]`, the last buffer
cell. -/
noncomputable def endPoint (a : ℕ → ℂ) (f : ℕ → ℝ) (i : ℤ) (ε : ℝ)
    (res : ℕ) : ℂ :=
  circlesBuf a f i ε res (bufLen - 1)

/-- Source `Circles.__init__`: the buffer starts as `np.zeros(...)`. -/
def initCircles : ℕ → ℂ := fun _ => 0

/-- Source `self._EPSILON = (np.max(plot.get_ydata()) - np.min(plot.get_ydata()))/10`,
computed in the constructor while the plot's y-data is `np.real(self._circles)`
of the all-zero initial buffer. -/
noncomputable def epsilonInit : ℝ :=
  ((Finset.range bufLen).sup'
      (Finset.nonempty_range_iff.mpr (by decide))
      (fun idx => (initCircles idx).re)
    - (Finset.range bufLen).inf'
      (Finset.nonempty_range_iff.mpr (by decide))
      (fun idx => (initCircles idx).re)) / 10

/-! ### Sympy expression model (`functions.py`)

Sympy expressions after parsing are flattened trees: `Add` and `Mul` carry
argument lists, `Pow` a base and an exponent, function applications a name
and arguments.  The behaviour of `expr.has(pattern)` relied on by
`multiplies_var` is: for a non-`Mul` pattern, some node of the preorder
traversal equals the pattern; for a `Mul` pattern, some `Mul` node contains
all of the pattern's factors among its own (this subset semantics is forced
by the doctests in `functions.py`, e.g.
`multiplies_var(abc.x, abc.w, parse_expr("w*a**pi*sin(k**10*tan(y*x)*z)"))`
is `True`, which requires `(w*a**pi*sin(..)).has(w*sin(..))`).  Building
`arg1*arg2` merges same-base powers (`a**x * a**z = a**(x+z)`), modelled by
`mulMerge`. -/

/-- Flattened sympy expression tree. -/
inductive SExpr where
  | sym : String → SExpr
  | num : Int → SExpr
  | add : List SExpr → SExpr
  | mul : List SExpr → SExpr
  | pow : SExpr → SExpr → SExpr
  | fn : String → List SExpr → SExpr

mutual

/-- Boolean equality of expressions. -/
def beqE : SExpr → SExpr → Bool
  | .sym a, .sym b => a == b
  | .num a, .num b => a == b
  | .add l, .add m => beqL l m
  | .mul l, .mul m => beqL l m
  | .pow a b, .pow c d => beqE a c && beqE b d
  | .fn a l, .fn b m => a == b && beqL l m
  | _, _ => false

/-- Boolean equality of expression lists. -/
def beqL : List SExpr → List SExpr → Bool
  | [], [] => true
  | x :: xs, y :: ys => beqE x y && beqL xs ys
  | _, _ => false

end

instance : BEq SExpr := ⟨beqE⟩

mutual

def beqE_refl : ∀ (e : SExpr), beqE e e = true
  | .sym _ => by simp [beqE]
  | .num _ => by simp [beqE]
  | .add l => by simp [beqE, beqL_refl l]
  | .mul l => by simp [beqE, beqL_refl l]
  | .pow a b => by simp [beqE, beqE_refl a, beqE_refl b]
  | .fn _ l => by simp [beqE, beqL_refl l]

def beqL_refl : ∀ (l : List SExpr), beqL l l = true
  | [] => by simp [beqL]
  | x :: xs => by simp [beqL, beqE_refl x, beqL_refl xs]

end

mutual

def beqE_eq : ∀ (a b : SExpr), beqE a b = true → a = b
  | .sym _, .sym _ => by simp [beqE]
  | .sym _, .num _ => by simp [beqE]
  | .sym _, .add _ => by simp [beqE]
  | .sym _, .mul _ => by simp [beqE]
  | .sym _, .pow _ _ => by simp [beqE]
  | .sym _, .fn _ _ => by simp [beqE]
  | .num _, .sym _ => by simp [beqE]
  | .num _, .num _ => by simp [beqE]
  | .num _, .add _ => by simp [beqE]
  | .num _, .mul _ => by simp [beqE]
  | .num _, .pow _ _ => by simp [beqE]
  | .num _, .fn _ _ => by simp [beqE]
  | .add _, .sym _ => by simp [beqE]
  | .add _, .num _ => by simp [beqE]
  | .add l, .add m => by
      simp only [beqE]; intro h; rw [beqL_eq l m h]
  | .add _, .mul _ => by simp [beqE]
  | .add _, .pow _ _ => by simp [beqE]
  | .add _, .fn _ _ => by simp [beqE]
  | .mul _, .sym _ => by simp [beqE]
  | .mul _, .num _ => by simp [beqE]
  | .mul _, .add _ => by simp [beqE]
  | .mul l, .mul m => by
      simp only [beqE]; intro h; rw [beqL_eq l m h]
  | .mul _, .pow _ _ => by simp [beqE]
  | .mul _, .fn _ _ => by simp [beqE]
  | .pow _ _, .sym _ => by simp [beqE]
  | .pow _ _, .num _ => by simp [beqE]
  | .pow _ _, .add _ => by simp [beqE]
  | .pow _ _, .mul _ => by simp [beqE]
  | .pow a b, .pow c d => by
      simp only [beqE, Bool.and_eq_true]
      intro h
      rw [beqE_eq a c h.1, beqE_eq b d h.2]
  | .pow _ _, .fn _ _ => by simp [beqE]
  | .fn _ _, .sym _ => by simp [beqE]
  | .fn _ _, .num _ => by simp [beqE]
  | .fn _ _, .add _ => by simp [beqE]
  | .fn _ _, .mul _ => by simp [beqE]
  | .fn _ _, .pow _ _ => by simp [beqE]
  | .fn a l, .fn b m => by
      simp only [beqE, Bool.and_eq_true, beq_iff_eq]
      intro h
      rw [h.1, beqL_eq l m h.2]

def beqL_eq : ∀ (l m : List SExpr), beqL l m = true → l = m
  | [], [] => by simp
  | [], _ :: _ => by simp [beqL]
  | _ :: _, [] => by simp [beqL]
  | x :: xs, y :: ys => by
      simp only [beqL, Bool.and_eq_true]
      intro h
      rw [beqE_eq x y h.1, beqL_eq xs ys h.2]

end

instance : LawfulBEq SExpr where
  eq_of_beq h := beqE_eq _ _ h
  rfl := beqE_refl _

instance : DecidableEq SExpr := fun a b =>
  if h : beqE a b = true then .isTrue (beqE_eq a b h)
  else .isFalse (fun he => h (he ▸ beqE_refl a))

/-- Sympy `expr.is_Pow`. -/
def SExpr.isPow : SExpr → Bool
  | .pow _ _ => true
  | _ => false

mutual

/-- Sympy `expr.has(symbol)` (equivalently, membership of the symbol in
`expr.free_symbols`). -/
def hasSym (s : String) : SExpr → Bool
  | .sym t => t == s
  | .num _ => false
  | .add l => hasSymL s l
  | .mul l => hasSymL s l
  | .pow b e => hasSym s b || hasSym s e
  | .fn _ l => hasSymL s l

/-- Helper of `hasSym` over argument lists. -/
def hasSymL (s : String) : List SExpr → Bool
  | [] => false
  | x :: xs => hasSym s x || hasSymL s xs

end

mutual

/-- Preorder traversal of an expression (sympy `preorder_traversal`). -/
def preorder : SExpr → List SExpr
  | .sym s => [.sym s]
  | .num n => [.num n]
  | .add l => .add l :: preorderL l
  | .mul l => .mul l :: preorderL l
  | .pow b e => .pow b e :: (preorder b ++ preorder e)
  | .fn g l => .fn g l :: preorderL l

/-- Helper of `preorder` over argument lists. -/
def preorderL : List SExpr → List SExpr
  | [] => []
  | x :: xs => preorder x ++ preorderL xs

end

/-- Multiplicative factors of an expression (`expr.args` of a `Mul`, the
expression itself otherwise). -/
def factors : SExpr → List SExpr
  | .mul l => l
  | e => [e]

/-- Base of a power (`expr.base`, the expression itself when not a power). -/
def sbase : SExpr → SExpr
  | .pow b _ => b
  | e => e

/-- Exponent of a power (`expr.exp`, `1` when not a power). -/
def sexpo : SExpr → SExpr
  | .pow _ e => e
  | _ => .num 1

/-- Summand list of an expression. -/
def addTerms : SExpr → List SExpr
  | .add l => l
  | e => [e]

/-- Sympy addition of two exponents (flattened `Add`). -/
def addE (e1 e2 : SExpr) : SExpr :=
  .add (addTerms e1 ++ addTerms e2)

/-- Sympy product of two same-base factors: `b**p * b**q = b**(p+q)`. -/
def powMul (u v : SExpr) : SExpr :=
  .pow (sbase u) (addE (sexpo u) (sexpo v))

/-- Insert a factor into a factor list, merging with an existing factor of
the same base (sympy `Mul` automatic simplification). -/
def mulMergeIns (f : SExpr) : List SExpr → List SExpr
  | [] => [f]
  | g :: gs => if sbase g == sbase f then powMul g f :: gs
               else g :: mulMergeIns f gs

/-- Merge a whole factor list. -/
def mulMerge (fs : List SExpr) : List SExpr :=
  fs.foldl (fun acc f => mulMergeIns f acc) []

/-- Rebuild an expression from a factor list (a one-element `Mul` is its
sole factor). -/
def mkMul : List SExpr → SExpr
  | [f] => f
  | fs => .mul fs

/-- Sympy `arg1 * arg2` as built inside `multiplies_var`'s `expr.has(arg1*arg2)`
check: concatenate the factor lists and merge same-base powers. -/
def mulProd (u v : SExpr) : SExpr :=
  mkMul (mulMerge (factors u ++ factors v))

/-- Sympy pattern matching used by `has`: a `Mul` pattern matches any `Mul`
node containing all of its factors; any other pattern matches only itself. -/
def matchPat (sub pat : SExpr) : Bool :=
  match pat with
  | .mul fs =>
      match sub with
      | .mul gs => fs.all (fun f => gs.contains f)
      | _ => false
  | p => sub == p

/-- Sympy `expr.has(pattern)`: some node of the preorder traversal matches. -/
def hasPat (e pat : SExpr) : Bool :=
  (preorder e).any (fun sub => matchPat sub pat)

/-- Source `multiplies_var`, the per-node check: some `arg1` of `expr.args`
contains the main variable and some `arg2` of `expr.args` is the arbitrary
variable or a power containing it, with `expr.has(arg1*arg2)`. -/
def nodeHit (main arb : String) (e : SExpr) (args : List SExpr) : Bool :=
  args.any (fun a1 => hasSym main a1 &&
    args.any (fun a2 =>
      (a2 == SExpr.sym arb || (a2.isPow && hasSym arb a2)) &&
        hasPat e (mulProd a1 a2)))

mutual

/-- Source `multiplies_var(main_var, arb_var, expr)` from `functions.py`:
the per-node check above, else recursion into the arguments that contain
the main variable (excluding the bare main variable itself). -/
def multipliesVar (main arb : String) : SExpr → Bool
  | .sym _ => false
  | .num _ => false
  | .add l => nodeHit main arb (.add l) l || mvList main arb l
  | .mul l => nodeHit main arb (.mul l) l || mvList main arb l
  | .pow b e =>
      nodeHit main arb (.pow b e) [b, e] ||
        ((hasSym main b && !(b == SExpr.sym main) && multipliesVar main arb b) ||
          (hasSym main e && !(e == SExpr.sym main) && multipliesVar main arb e))
  | .fn g l => nodeHit main arb (.fn g l) l || mvList main arb l

/-- Recursion of `multiplies_var` over an argument list (the source's
`any([multiplies_var(main_var, arb_var, arg) for arg in arg_list if (arg is not main_var)])`
with `arg_list` the arguments containing the main variable). -/
def mvList (main arb : String) : List SExpr → Bool
  | [] => false
  | x :: xs =>
      (hasSym main x && !(x == SExpr.sym main) && multipliesVar main arb x) ||
        mvList main arb xs

end

/-- Model of `FunctionRtoR`: the parsed expression and the independent
variable (`self.symbols[0]`). -/
structure FnModel where
  expr : SExpr
  mainVar : String
deriving DecidableEq

/-- Source `FunctionRtoR.get_default_values` for one parameter `s`:
`float(multiplies_var(self.symbols[0], s, self._symbolic_func))`. -/
def defaultValue (f : FnModel) (s : String) : ℝ :=
  if multipliesVar f.mainVar s f.expr then 1 else 0

/-- Claim-side predicate, modelled from the spec's words: the parameter
multiplies a sub-expression containing the independent variable anywhere in
the expression tree — some `Mul` node has, at two distinct factor
positions, a factor that is the parameter symbol or a power containing it
(recursively, "including through powers") and a factor containing the
independent variable. -/
def specMultiplies (main arb : String) (e : SExpr) : Bool :=
  (preorder e).any (fun sub =>
    match sub with
    | .mul gs =>
        gs.any (fun u =>
          (u == SExpr.sym arb || (u.isPow && hasSym arb u)) &&
            (gs.erase u).any (fun v => hasSym main v))
    | _ => false)

/-- Canonical-form predicate for parsed sympy expressions, as needed below:
the factor list of every `Mul` node contains no nested `Mul` and has
pairwise distinct bases (sympy's automatic simplification guarantees both). -/
def isMul : SExpr → Bool
  | .mul _ => true
  | _ => false

/-- Pairwise distinct bases of a factor list. -/
def distinctBases : List SExpr → Bool
  | [] => true
  | x :: xs => xs.all (fun y => !(sbase y == sbase x)) && distinctBases xs

mutual

/-- Canonicity of an expression (see `distinctBases`). -/
def canonE : SExpr → Bool
  | .sym _ => true
  | .num _ => true
  | .add l => canonL l
  | .mul l => l.all (fun g => !isMul g) && distinctBases l && canonL l
  | .pow b e => canonE b && canonE e
  | .fn _ l => canonL l

/-- Canonicity over argument lists. -/
def canonL : List SExpr → Bool
  | [] => true
  | x :: xs => canonE x && canonL xs

end

/-! ### Function submission (`FunctionRtoR.__init__`, `FourierAnimation.set_function`) -/

/-- Error raised by `FunctionRtoR.__init__` when the independent variable is
absent from the parsed expression's free symbols. -/
inductive SubmitError where
  | variableNotFound : SubmitError
deriving DecidableEq, Repr

/-- Source `FunctionRtoR.__init__` (post parsing): raise
`VariableNotFoundError` if the independent variable is not among the free
symbols, otherwise construct the function object.  The check happens before
any other state is touched. -/
def functionRtoRInit (e : SExpr) (param : String) : Except SubmitError FnModel :=
  if hasSym param e then .ok { expr := e, mainVar := param }
  else .error .variableNotFound

/-- Fields of `FourierData` as owned by the animation: the current function
and the cached numeric state (sample count, amplitude array).  Only
identity vs. non-identity of the whole record matters to claim C7. -/
structure FDState where
  func : FnModel
  n : ℕ
  amps : ℕ → ℂ

/-- Animation-level state: the `FourierAnimation.function` reference and the
`FourierData` owned (through `Circles`) by the animation. -/
structure AnimState where
  funcModel : FnModel
  fourier : FDState

/-- Source `FourierAnimation.set_function`: construct
`FunctionRtoR(function_name, abc.t)` first; on success replace the function
and delegate to `Circles.set_function` (whose recompute is abstracted by the
`recompute` argument); on `VariableNotFoundError` the exception propagates
before any assignment, leaving every field — in particular the whole
`FourierData` state — unchanged.  The result pairs the raised error (if
any) with the state after the call. -/
def animSetFunction (recompute : FDState → FnModel → FDState)
    (st : AnimState) (e : SExpr) : Option SubmitError × AnimState :=
  match functionRtoRInit e "t" with
  | .error err => (some err, st)
  | .ok f =>
      (none, { st with funcModel := f, fourier := recompute st.fourier f })

/-! ### Concrete inputs used by counterexamples -/

/-- Concrete two-point sampled signal `[1, -1]` (the alternating signal,
whose entire energy sits in the Nyquist bin). -/
def cexSignal : ℕ → ℝ := fun m => if m = 0 then 1 else if m = 1 then -1 else 0

/-- Concrete parsed expression `d*a**x + a**z + d*w*a**(x+z)` (canonical
sympy form; the exponent of the third term is the flattened `Add [x, z]`
that sympy produces for `x+z`). -/
def c9expr : SExpr :=
  .add [.mul [.sym "d", .pow (.sym "a") (.sym "x")],
        .pow (.sym "a") (.sym "z"),
        .mul [.sym "d", .sym "w", .pow (.sym "a") (.add [.sym "x", .sym "z"])]]

/-! ## Theorems -/

/-! ### C5: the resolution invariant -/

/-- C5 counterexample: the state `resolution = 129`, `n = 256` satisfies the
invariant `1 ≤ resolution ≤ n//2+1`, but `set_number_of_points(64)` (which
leaves `resolution` untouched while shrinking the harmonic count to 33)
breaks it.  The claim that *every* listed operation preserves the invariant
is therefore false. -/
theorem c5_counterexample :
    CInv ⟨129, 256⟩ ∧ ¬ CInv (csSetNumberOfPoints ⟨129, 256⟩ 64) := by
  decide

/-- C5 amended: all listed operations except `set_number_of_points` preserve
`1 ≤ resolution ≤ n//2+1`; an out-of-range `set_number_of_circles` request
is a silent no-op; `set_number_of_points` always preserves the lower bound
and preserves the whole invariant exactly when the current resolution does
not exceed the new harmonic count `m//2+1`. -/
theorem c5_invariant_amended (s : CState) (r m : ℕ) (h : CInv s) :
    CInv (setNumberOfCircles s r) ∧ CInv (csSetFunction s) ∧
    CInv (csSetParams s) ∧ CInv (csSetPeriod s) ∧ CInv (csUpdate s) ∧
    (¬ (s.n / 2 + 1 ≥ r ∧ r > 0) → setNumberOfCircles s r = s) ∧
    1 ≤ (csSetNumberOfPoints s m).resolution ∧
    (s.resolution ≤ m / 2 + 1 → CInv (csSetNumberOfPoints s m)) := by
  refine ⟨?_, h, h, h, h, ?_, h.1, ?_⟩
  · unfold setNumberOfCircles
    split
    · next hc => exact ⟨hc.2, hc.1⟩
    · exact h
  · intro hnot
    unfold setNumberOfCircles
    exact if_neg hnot
  · intro hle
    exact ⟨h.1, hle⟩

/-- C5 witness: the amended statement applied at the concrete in-invariant
state `⟨1, 2⟩` with `r = 1`, `m = 2`. -/
theorem c5_invariant_amended_witness :
    CInv (setNumberOfCircles ⟨1, 2⟩ 1) ∧ CInv (csSetFunction ⟨1, 2⟩) ∧
    CInv (csSetParams ⟨1, 2⟩) ∧ CInv (csSetPeriod ⟨1, 2⟩) ∧
    CInv (csUpdate ⟨1, 2⟩) ∧
    (¬ ((2 : ℕ) / 2 + 1 ≥ 1 ∧ (1 : ℕ) > 0) → setNumberOfCircles ⟨1, 2⟩ 1 = ⟨1, 2⟩) ∧
    1 ≤ (csSetNumberOfPoints ⟨1, 2⟩ 2).resolution ∧
    ((1 : ℕ) ≤ 2 / 2 + 1 → CInv (csSetNumberOfPoints ⟨1, 2⟩ 2)) :=
  c5_invariant_amended ⟨1, 2⟩ 1 2 (by decide)

/-! ### C6: the zero-span rescale guard -/

/-- Folding `min` over a constant list returns the constant. -/
theorem foldl_min_replicate (k : ℕ) (c : ℝ) :
    (List.replicate k c).foldl min c = c := by
  induction k with
  | zero => rfl
  | succ k ih => simpa [List.replicate_succ] using ih

/-- Folding `max` over a constant list returns the constant. -/
theorem foldl_max_replicate (k : ℕ) (c : ℝ) :
    (List.replicate k c).foldl max c = c := by
  induction k with
  | zero => rfl
  | succ k ih => simpa [List.replicate_succ] using ih

/-- Minimum of a nonempty constant list. -/
theorem npAMin_replicate (k : ℕ) (c : ℝ) :
    npAMin (List.replicate (k + 1) c) = c := by
  simpa [npAMin, List.replicate_succ] using foldl_min_replicate k c

/-- Maximum of a nonempty constant list. -/
theorem npAMax_replicate (k : ℕ) (c : ℝ) :
    npAMax (List.replicate (k + 1) c) = c := by
  simpa [npAMax, List.replicate_succ] using foldl_max_replicate k c

/-- C6 counterexample: for the constant array `[5, 5]` with plot range
`[-1, 1]`, `in_bounds` is **false** (it tests range membership, not span),
the span is zero, and the rescale *is* executed — the affine map divides by
the zero span (modelled by Lean's `x/0 = 0`, hence every entry becomes the
lower bound `-1`).  The claim that a zero span is treated as in-bounds and
skipped is therefore false. -/
theorem c6_counterexample :
    ¬ (setScaleValues [5, 5] (-1) 1).inBounds ∧
    (setScaleValues [5, 5] (-1) 1).yDiff = 0 ∧
    updateX [5, 5] (-1) 1 = [-1, -1] := by
  have hmin : npAMin [5, 5] = 5 := by norm_num [npAMin]
  have hmax : npAMax [5, 5] = 5 := by norm_num [npAMax]
  have hnb : ¬ (setScaleValues [5, 5] (-1) 1).inBounds := by
    simp only [setScaleValues, VRState.inBounds, hmin, hmax]
    norm_num
  refine ⟨hnb, ?_, ?_⟩
  · simp [setScaleValues, VRState.yDiff, hmin, hmax]
  · rw [updateX, if_neg hnb]
    simp [setScaleValues, VRState.rescale, VRState.yDiff, hmin, hmax]

/-- C6 amended: for a nonempty constant array the span is always zero, but
`in_bounds` holds — and rescaling is skipped — exactly when the constant
value lies inside the plot range; a constant array outside the range fails
`in_bounds` and the affine map runs with a zero denominator. -/
theorem c6_zero_span_amended (c lo hi : ℝ) (k : ℕ) :
    ((setScaleValues (List.replicate (k + 1) c) lo hi).inBounds ↔
      (lo ≤ c ∧ c ≤ hi)) ∧
    (setScaleValues (List.replicate (k + 1) c) lo hi).yDiff = 0 ∧
    ((lo ≤ c ∧ c ≤ hi) →
      updateX (List.replicate (k + 1) c) lo hi = List.replicate (k + 1) c) := by
  have hmin := npAMin_replicate k c
  have hmax := npAMax_replicate k c
  have hiff : (setScaleValues (List.replicate (k + 1) c) lo hi).inBounds ↔
      (lo ≤ c ∧ c ≤ hi) := by
    simp only [setScaleValues, VRState.inBounds, hmin, hmax]
    tauto
  refine ⟨hiff, ?_, ?_⟩
  · simp [setScaleValues, VRState.yDiff, hmin, hmax]
  · intro hc
    rw [updateX, if_pos (hiff.mpr hc)]

/-- C6 witness: the amended statement at the concrete constant array
`[0, 0]` with range `[-1, 1]`. -/
theorem c6_zero_span_amended_witness :
    ((setScaleValues (List.replicate 2 (0 : ℝ)) (-1) 1).inBounds ↔
      ((-1 : ℝ) ≤ 0 ∧ (0 : ℝ) ≤ 1)) ∧
    (setScaleValues (List.replicate 2 (0 : ℝ)) (-1) 1).yDiff = 0 ∧
    (((-1 : ℝ) ≤ 0 ∧ (0 : ℝ) ≤ 1) →
      updateX (List.replicate 2 (0 : ℝ)) (-1) 1 = List.replicate 2 (0 : ℝ)) :=
  c6_zero_span_amended 0 (-1) 1 1

/-! ### C10: the circle-collapse branch is unreachable -/

/-- The constructor's epsilon is the y-extent of an all-zero buffer divided
by ten, i.e. exactly `0`. -/
theorem epsilonInit_zero : epsilonInit = 0 := by
  simp [epsilonInit, initCircles]

/-- The collapse condition `np.real(amp*np.conj(amp)) < _EPSILON` never
holds: the left side is the nonnegative `normSq`, the right side is `0`. -/
theorem collapse_condition_false (amp : ℂ) :
    ¬ ((amp * (starRingEnd ℂ) amp).re < epsilonInit) := by
  rw [epsilonInit_zero, Complex.mul_conj]
  simpa using Complex.normSq_nonneg amp

/-- C10: `_EPSILON`, computed in the constructor from the y-extent of the
all-zero initial buffer, equals `0`; the squared magnitude
`np.real(amp*np.conj(amp))` is never `< 0`, so `_draw_circle` always takes
the full-circle branch and `update_plots` never collapses a circle to a
single point. -/
theorem c10_collapse_unreachable :
    epsilonInit = 0 ∧
    (∀ amp : ℂ, ¬ ((amp * (starRingEnd ℂ) amp).re < epsilonInit)) ∧
    (∀ centre amp : ℂ, ∀ m : ℕ,
      drawCirclePoint epsilonInit centre amp m = centre + amp * genCircle m) ∧
    (∀ (a : ℕ → ℂ) (f : ℕ → ℝ) (i : ℤ) (j m : ℕ),
      outline a f i epsilonInit (j + 1) m =
        outline a f i epsilonInit j (ptsPerCircle - 1) +
          rotAmp a f i (j + 1) * genCircle m) := by
  have heps : epsilonInit = 0 := epsilonInit_zero
  have hge : ∀ amp : ℂ, ¬ ((amp * (starRingEnd ℂ) amp).re < epsilonInit) :=
    collapse_condition_false
  have hdraw : ∀ centre amp : ℂ, ∀ m : ℕ,
      drawCirclePoint epsilonInit centre amp m = centre + amp * genCircle m := by
    intro centre amp m
    rw [drawCirclePoint, if_neg (hge amp)]
  refine ⟨heps, hge, hdraw, ?_⟩
  intro a f i j m
  rw [outline, hdraw]

/-! ### C7: rejecting text without the independent variable -/

/-- C7: for every parsed expression not containing the independent variable
`t`, `FourierAnimation.set_function` raises `VariableNotFoundError`
synchronously — the `FunctionRtoR` constructor checks the free symbols
before anything else runs — and returns with every field of the state,
in particular the whole `FourierData` state, unchanged.  The statement is
universally quantified over the recompute performed on the success path, so
it is independent of the numeric details of `_update_data`. -/
theorem c7_variable_not_found (recompute : FDState → FnModel → FDState)
    (st : AnimState) (e : SExpr) (h : hasSym "t" e = false) :
    animSetFunction recompute st e = (some SubmitError.variableNotFound, st) := by
  unfold animSetFunction functionRtoRInit
  simp [h]

/-- C7 witness: submitting `5*x` (which does not mention `t`) against a
concrete animation state raises the error and leaves the state unchanged. -/
theorem c7_variable_not_found_witness :
    animSetFunction (fun s _ => s)
      ⟨⟨.sym "t", "t"⟩, ⟨⟨.sym "t", "t"⟩, 256, fun _ => 0⟩⟩
      (.mul [.num 5, .sym "x"]) =
    (some SubmitError.variableNotFound,
      ⟨⟨.sym "t", "t"⟩, ⟨⟨.sym "t", "t"⟩, 256, fun _ => 0⟩⟩) :=
  c7_variable_not_found (fun s _ => s) _ _ (by decide)

/-! ### The stored frequency array -/

/-- Entry `i < 129` of `np.fft.rfftfreq(256)` is `i/256`. -/
theorem rfftFreq256_getD (i : ℕ) (h : i < 129) :
    rfftFreq256.getD i 0 = (i : ℚ) / 256 := by
  have hlen : i < rfftFreq256.length := by
    simp only [rfftFreq256, List.length_map, List.length_range]
    exact h
  rw [List.getD_eq_getElem rfftFreq256 0 hlen]
  simp [rfftFreq256]

/-- The frequencies are already ascending, so `np.argsort` returns the
identity permutation `[0, 1, ..., 128]`. -/
theorem sortArr256_eq : sortArr256 = List.range 129 := by
  apply List.Sorted.insertionSort_eq
  refine List.Pairwise.imp_of_mem ?_ (List.pairwise_lt_range 129)
  intro a b ha hb hab
  rw [List.mem_range] at ha hb
  rw [rfftFreq256_getD a ha, rfftFreq256_getD b hb]
  have : (a : ℚ) ≤ b := by exact_mod_cast hab.le
  linarith

/-- In-range accesses of the sort array are the identity. -/
theorem sortIdx_eq (i : ℕ) (h : i < 129) : sortIdx i = i := by
  simp [sortIdx, sortArr256_eq, List.getD_eq_getElem?_getD,
    List.getElem?_range, h]

/-- The stored frequency of bin `i < 129` is `i/256`. -/
theorem fStoredQ_eq (i : ℕ) (h : i < 129) : fStoredQ i = (i : ℚ) / 256 := by
  rw [fStoredQ, sortIdx_eq i h, rfftFreq256_getD i h]

/-- The zero bin of the stored frequency array carries frequency `0`. -/
theorem fStored_zero : fStored 0 = 0 := by
  rw [fStored, fStoredQ_eq 0 (by norm_num)]
  norm_num

/-- The stored frequency array is ascending. -/
theorem fStored_mono (i j : ℕ) (hij : i ≤ j) (hj : j < 129) :
    fStored i ≤ fStored j := by
  rw [fStored, fStored, fStoredQ_eq i (lt_of_le_of_lt hij hj), fStoredQ_eq j hj]
  have : (i : ℚ) / 256 ≤ (j : ℚ) / 256 := by
    have : (i : ℚ) ≤ j := by exact_mod_cast hij
    linarith
  exact_mod_cast this

/-! ### Buffer index decomposition -/

/-- Cell `j*51` of the buffer holds the chain vertex of harmonic `j`
whenever `j` is an active harmonic. -/
theorem circlesBuf_vertex (a : ℕ → ℂ) (f : ℕ → ℝ) (i : ℤ) (ε : ℝ)
    (res j : ℕ) (hj : j < res) :
    circlesBuf a f i ε res (j * (ptsPerCircle + 1)) = vertex a f i ε j := by
  have hlt : j * (ptsPerCircle + 1) < res * (ptsPerCircle + 1) - 1 := by
    simp only [ptsPerCircle]
    omega
  rw [circlesBuf, if_pos hlt, if_pos (Nat.mul_mod_left j (ptsPerCircle + 1))]
  congr 1
  exact Nat.mul_div_cancel j (by norm_num [ptsPerCircle])

/-- Cell `j*51 + m + 1` of the buffer holds outline point `m` of harmonic
`j` whenever `j` is an active harmonic and `m < 50` (including the corner
cell `stop_index`, whose frozen value coincides with the last outline point
of the last active harmonic). -/
theorem circlesBuf_outline (a : ℕ → ℂ) (f : ℕ → ℝ) (i : ℤ) (ε : ℝ)
    (res j m : ℕ) (hj : j < res) (hm : m < ptsPerCircle) :
    circlesBuf a f i ε res (j * (ptsPerCircle + 1) + m + 1) =
      outline a f i ε j m := by
  by_cases hlt : j * (ptsPerCircle + 1) + m + 1 < res * (ptsPerCircle + 1) - 1
  · have hidx : j * (ptsPerCircle + 1) + m + 1 = (m + 1) + j * (ptsPerCircle + 1) := by
      omega
    have hmod : (j * (ptsPerCircle + 1) + m + 1) % (ptsPerCircle + 1) = m + 1 := by
      rw [hidx, Nat.add_mul_mod_self_right]
      exact Nat.mod_eq_of_lt (by omega)
    have hdiv : (j * (ptsPerCircle + 1) + m + 1) / (ptsPerCircle + 1) = j := by
      rw [hidx, Nat.add_mul_div_right _ _ (by norm_num [ptsPerCircle])]
      rw [Nat.div_eq_of_lt (by omega)]
      omega
    rw [circlesBuf, if_pos hlt, if_neg (by omega), hdiv, hmod]
    simp
  · have hcorner : j = res - 1 ∧ m = ptsPerCircle - 1 := by
      simp only [ptsPerCircle] at hlt hm ⊢
      omega
    rw [circlesBuf, if_neg hlt, hcorner.1, hcorner.2]

/-! ### Outline/vertex links (exact arithmetic) -/

/-- The last generator point `exp(2πi·50/50)` is exactly `1`. -/
theorem genCircle_last : genCircle (ptsPerCircle - 1) = 1 := by
  rw [genCircle]
  have h1 : ((((ptsPerCircle - 1 : ℕ) : ℝ) + 1) / (ptsPerCircle : ℝ) : ℝ) = 1 := by
    norm_num [ptsPerCircle]
  rw [h1]
  have h2 : (2 * Complex.I * (Real.pi : ℂ) * ((1 : ℝ) : ℂ)) =
      2 * (Real.pi : ℂ) * Complex.I := by
    push_cast
    ring
  rw [h2, Complex.exp_two_pi_mul_I]

/-- Every outline cell of harmonic 0 equals `a 0`: the source multiplies the
angle by `0`, so the harmonic-0 "circle" is the single point `a 0`. -/
theorem outline_zero (a : ℕ → ℂ) (f : ℕ → ℝ) (i : ℤ) (ε : ℝ) (m : ℕ) :
    outline a f i ε 0 m = a 0 := by
  rw [outline]
  simp

/-- When the stored zero frequency vanishes, the chain vertex of harmonic 0
is `a 0`. -/
theorem vertex_zero_of_f0 (a : ℕ → ℂ) (f : ℕ → ℝ) (i : ℤ) (ε : ℝ)
    (hf : f 0 = 0) : vertex a f i ε 0 = a 0 := by
  rw [vertex, hf]
  push_cast
  simp

/-- The last outline cell of harmonic `j+1` equals its chain vertex, in both
branches of `_draw_circle`. -/
theorem outline_last_succ (a : ℕ → ℂ) (f : ℕ → ℝ) (i : ℤ) (ε : ℝ) (j : ℕ) :
    outline a f i ε (j + 1) (ptsPerCircle - 1) = vertex a f i ε (j + 1) := by
  rw [outline, vertex, drawCirclePoint]
  split
  · exact add_comm _ _
  · rw [genCircle_last, mul_one]
    exact add_comm _ _

/-- The last outline cell of every harmonic equals its chain vertex when the
zero-bin frequency vanishes (as the stored frequency array guarantees). -/
theorem outline_last_eq_vertex (a : ℕ → ℂ) (f : ℕ → ℝ) (i : ℤ) (ε : ℝ)
    (hf : f 0 = 0) (j : ℕ) :
    outline a f i ε j (ptsPerCircle - 1) = vertex a f i ε j := by
  cases j with
  | zero => rw [outline_zero, vertex_zero_of_f0 a f i ε hf]
  | succ j => exact outline_last_succ a f i ε j

/-! ### C2: the chain recurrence -/

/-- C2: after `update_plots(i)` with the stored (sorted `rfftfreq`)
frequency array, the chain vertex of every active harmonic `j+1` is the
chain vertex of harmonic `j` plus `a[j+1]·exp(-2π·i·f[j+1]·√-1)`, and the
vertex of harmonic 0 is `a[0]·exp(-2π·i·f[0]·√-1)`.  (The bound
`res ≤ 129` keeps all buffer writes inside the array allocated by the
constructor, as in the source.) -/
theorem c2_chain_recurrence (a : ℕ → ℂ) (i : ℤ) (ε : ℝ) (res j : ℕ)
    (hres : res ≤ 129) (hj : j + 1 < res) :
    circlesBuf a fStored i ε res ((j + 1) * (ptsPerCircle + 1)) =
      circlesBuf a fStored i ε res (j * (ptsPerCircle + 1)) +
        a (j + 1) * Complex.exp (-2 * (Real.pi : ℂ) * (i : ℂ) * Complex.I *
          ((fStored (j + 1) : ℝ) : ℂ)) ∧
    circlesBuf a fStored i ε res 0 =
      a 0 * Complex.exp (-2 * (Real.pi : ℂ) * (i : ℂ) * Complex.I *
        ((fStored 0 : ℝ) : ℂ)) := by
  constructor
  · rw [circlesBuf_vertex a fStored i ε res (j + 1) hj,
      circlesBuf_vertex a fStored i ε res j (by omega)]
    rw [vertex, outline_last_eq_vertex a fStored i ε fStored_zero j, rotAmp]
    ring
  · have hv := circlesBuf_vertex a fStored i ε res 0 (by omega)
    rw [Nat.zero_mul] at hv
    rw [hv, vertex]

/-- C2 witness: the chain recurrence at the concrete input `a ≡ 1`,
`i = 1`, `ε = 0`, `res = 2`, `j = 0`. -/
theorem c2_chain_recurrence_witness :
    circlesBuf (fun _ => 1) fStored 1 0 2 ((0 + 1) * (ptsPerCircle + 1)) =
      circlesBuf (fun _ => 1) fStored 1 0 2 (0 * (ptsPerCircle + 1)) +
        (fun _ => (1 : ℂ)) (0 + 1) *
          Complex.exp (-2 * (Real.pi : ℂ) * ((1 : ℤ) : ℂ) * Complex.I *
            ((fStored (0 + 1) : ℝ) : ℂ)) ∧
    circlesBuf (fun _ => 1) fStored 1 0 2 0 =
      (fun _ => (1 : ℂ)) 0 *
        Complex.exp (-2 * (Real.pi : ℂ) * ((1 : ℤ) : ℂ) * Complex.I *
          ((fStored 0 : ℝ) : ℂ)) :=
  c2_chain_recurrence (fun _ => 1) 1 0 2 0 (by norm_num) (by norm_num)

/-! ### C4: truncation is monotone -/

/-- C4: with fixed coefficients, frequencies and rotation counter, the chain
vertex of any harmonic `j < r1` computed under resolution `r2 > r1` equals
the one computed under resolution `r1`: the per-harmonic loop writes block
`j` before ever reading anything that depends on the resolution, and the
freeze loop only touches cells from `stop_index` on. -/
theorem c4_truncation_monotone (a : ℕ → ℂ) (f : ℕ → ℝ) (i : ℤ) (ε : ℝ)
    (r1 r2 j : ℕ) (h12 : r1 < r2) (_hM : r2 ≤ 129) (hj : j < r1) :
    circlesBuf a f i ε r2 (j * (ptsPerCircle + 1)) =
      circlesBuf a f i ε r1 (j * (ptsPerCircle + 1)) := by
  rw [circlesBuf_vertex a f i ε r2 j (hj.trans h12),
    circlesBuf_vertex a f i ε r1 j hj]

/-- C4 witness: truncation monotonicity at `a ≡ 1`, `f ≡ 0`, `i = 0`,
`ε = 0`, `r1 = 1`, `r2 = 2`, `j = 0`. -/
theorem c4_truncation_monotone_witness :
    circlesBuf (fun _ => 1) (fun _ => 0) 0 0 2 (0 * (ptsPerCircle + 1)) =
      circlesBuf (fun _ => 1) (fun _ => 0) 0 0 1 (0 * (ptsPerCircle + 1)) :=
  c4_truncation_monotone (fun _ => 1) (fun _ => 0) 0 0 1 2 0
    (by norm_num) (by norm_num) (by norm_num)

/-! ### C8: circle outlines -/

/-- Rotation leaves the modulus of an amplitude unchanged. -/
theorem abs_rotAmp (a : ℕ → ℂ) (f : ℕ → ℝ) (i : ℤ) (j : ℕ) :
    Complex.abs (rotAmp a f i j) = Complex.abs (a j) := by
  rw [rotAmp, map_mul]
  have hz : (-2 * (Real.pi : ℂ) * (i : ℂ) * Complex.I * ((f j : ℝ) : ℂ)) =
      ((-2 * Real.pi * (i : ℝ) * f j : ℝ) : ℂ) * Complex.I := by
    push_cast
    ring
  rw [hz, Complex.abs_exp_ofReal_mul_I, one_mul]

/-- Every generator point has modulus `1`. -/
theorem abs_genCircle (m : ℕ) : Complex.abs (genCircle m) = 1 := by
  rw [genCircle]
  have hz : (2 * Complex.I * (Real.pi : ℂ) *
      ((((m : ℝ) + 1) / (ptsPerCircle : ℝ) : ℝ) : ℂ)) =
      ((2 * Real.pi * (((m : ℝ) + 1) / (ptsPerCircle : ℝ)) : ℝ) : ℂ) * Complex.I := by
    push_cast
    ring
  rw [hz, Complex.abs_exp_ofReal_mul_I]

/-- C8 amended: for every harmonic `j ≥ 1` whose rotated amplitude does not
trigger the collapse branch, `update_plots` writes the 50 outline points of
harmonic `j` evenly spaced in angle around the chain vertex of harmonic
`j-1`, each at distance `|a[j]|` from that centre.  (For `j = 0` the claim
fails: see the counterexample.) -/
theorem c8_outline_amended (a : ℕ → ℂ) (i : ℤ) (ε : ℝ) (res j : ℕ)
    (hj : 1 ≤ j) (hjr : j < res)
    (hnd : ¬ ((rotAmp a fStored i j * (starRingEnd ℂ) (rotAmp a fStored i j)).re < ε)) :
    ∃ θ : ℝ, ∀ m, m < ptsPerCircle →
      circlesBuf a fStored i ε res (j * (ptsPerCircle + 1) + m + 1) =
        circlesBuf a fStored i ε res ((j - 1) * (ptsPerCircle + 1)) +
          ((Complex.abs (a j) : ℝ) : ℂ) *
            Complex.exp (Complex.I *
              ((θ + 2 * Real.pi * (((m : ℝ) + 1) / (ptsPerCircle : ℝ)) : ℝ) : ℂ)) ∧
      Complex.abs (circlesBuf a fStored i ε res (j * (ptsPerCircle + 1) + m + 1) -
          circlesBuf a fStored i ε res ((j - 1) * (ptsPerCircle + 1))) =
        Complex.abs (a j) := by
  obtain ⟨j', rfl⟩ : ∃ j', j = j' + 1 := ⟨j - 1, by omega⟩
  refine ⟨Complex.arg (rotAmp a fStored i (j' + 1)), ?_⟩
  intro m hm
  have hbuf1 : circlesBuf a fStored i ε res ((j' + 1) * (ptsPerCircle + 1) + m + 1) =
      outline a fStored i ε (j' + 1) m :=
    circlesBuf_outline a fStored i ε res (j' + 1) m hjr hm
  have houtline : outline a fStored i ε (j' + 1) m =
      vertex a fStored i ε j' + rotAmp a fStored i (j' + 1) * genCircle m := by
    rw [outline, drawCirclePoint, if_neg hnd,
      outline_last_eq_vertex a fStored i ε fStored_zero j']
  have hbufc : circlesBuf a fStored i ε res ((j' + 1 - 1) * (ptsPerCircle + 1)) =
      vertex a fStored i ε j' := by
    have h1 : j' + 1 - 1 = j' := rfl
    rw [h1, circlesBuf_vertex a fStored i ε res j' (by omega)]
  have key : ((Complex.abs (a (j' + 1)) : ℝ) : ℂ) *
      Complex.exp (Complex.I *
        ((Complex.arg (rotAmp a fStored i (j' + 1)) +
          2 * Real.pi * (((m : ℝ) + 1) / (ptsPerCircle : ℝ)) : ℝ) : ℂ)) =
      rotAmp a fStored i (j' + 1) * genCircle m := by
    rw [genCircle]
    have hsplit : (Complex.I *
        ((Complex.arg (rotAmp a fStored i (j' + 1)) +
          2 * Real.pi * (((m : ℝ) + 1) / (ptsPerCircle : ℝ)) : ℝ) : ℂ)) =
        ((Complex.arg (rotAmp a fStored i (j' + 1)) : ℝ) : ℂ) * Complex.I +
          2 * Complex.I * (Real.pi : ℂ) *
            ((((m : ℝ) + 1) / (ptsPerCircle : ℝ) : ℝ) : ℂ) := by
      push_cast
      ring
    rw [hsplit, Complex.exp_add, ← mul_assoc, ← abs_rotAmp a fStored i (j' + 1),
      Complex.abs_mul_exp_arg_mul_I]
  constructor
  · rw [hbuf1, houtline, hbufc]
    rw [key]
  · rw [hbuf1, houtline, hbufc, add_sub_cancel_left, map_mul,
      abs_rotAmp a fStored i (j' + 1), abs_genCircle, mul_one]

/-- C8 amended witness: the outline description at the concrete input
`a ≡ 1`, `i = 0`, `ε = 0`, `res = 2`, `j = 1` (the collapse condition
`|amp|² < 0` is false). -/
theorem c8_outline_amended_witness :
    ∃ θ : ℝ, ∀ m, m < ptsPerCircle →
      circlesBuf (fun _ => 1) fStored 0 0 2 (1 * (ptsPerCircle + 1) + m + 1) =
        circlesBuf (fun _ => 1) fStored 0 0 2 ((1 - 1) * (ptsPerCircle + 1)) +
          ((Complex.abs ((fun _ => (1 : ℂ)) 1) : ℝ) : ℂ) *
            Complex.exp (Complex.I *
              ((θ + 2 * Real.pi * (((m : ℝ) + 1) / (ptsPerCircle : ℝ)) : ℝ) : ℂ)) ∧
      Complex.abs (circlesBuf (fun _ => 1) fStored 0 0 2 (1 * (ptsPerCircle + 1) + m + 1) -
          circlesBuf (fun _ => 1) fStored 0 0 2 ((1 - 1) * (ptsPerCircle + 1))) =
        Complex.abs ((fun _ => (1 : ℂ)) 1) :=
  c8_outline_amended (fun _ => 1) 0 0 2 1 (by norm_num) (by norm_num)
    (by
      intro hlt
      have h1 : rotAmp (fun _ => 1) fStored 0 1 *
          (starRingEnd ℂ) (rotAmp (fun _ => 1) fStored 0 1) =
          ((Complex.normSq (rotAmp (fun _ => 1) fStored 0 1) : ℝ) : ℂ) :=
        Complex.mul_conj _
      rw [h1] at hlt
      simp only [Complex.ofReal_re] at hlt
      exact absurd hlt (not_lt.mpr (Complex.normSq_nonneg _)))

/-- C8 counterexample: for harmonic `0` the claim fails.  With `a 0 = 1`
(and the actual constructor epsilon), all 50 outline cells of harmonic 0
hold the single value `a 0 = 1` — the source multiplies the angle by `0` —
so they are not 50 points evenly spaced in angle around the origin at
distance `|a 0| = 1`: no starting angle `θ` fits them. -/
theorem c8_counterexample :
    ¬ ∃ θ : ℝ, ∀ m, m < ptsPerCircle →
      circlesBuf (fun _ => 1) fStored 0 epsilonInit 2 (0 * (ptsPerCircle + 1) + m + 1) =
        0 + ((Complex.abs ((fun _ => (1 : ℂ)) 0) : ℝ) : ℂ) *
          Complex.exp (Complex.I *
            ((θ + 2 * Real.pi * (((m : ℝ) + 1) / (ptsPerCircle : ℝ)) : ℝ) : ℂ)) := by
  rintro ⟨θ, h⟩
  have h0 := h 0 (by norm_num [ptsPerCircle])
  have h1 := h 1 (by norm_num [ptsPerCircle])
  rw [circlesBuf_outline (fun _ => 1) fStored 0 epsilonInit 2 0 0 (by norm_num)
      (by norm_num [ptsPerCircle]), outline_zero] at h0
  rw [circlesBuf_outline (fun _ => 1) fStored 0 epsilonInit 2 0 1 (by norm_num)
      (by norm_num [ptsPerCircle]), outline_zero] at h1
  simp only [zero_add, map_one, Complex.ofReal_one, one_mul] at h0 h1
  have e0 : Complex.exp (Complex.I *
      ((θ + 2 * Real.pi * (((0 : ℕ) + 1 : ℝ) / (ptsPerCircle : ℝ)) : ℝ) : ℂ)) = 1 :=
    h0.symm
  have e1 : Complex.exp (Complex.I *
      ((θ + 2 * Real.pi * (((1 : ℕ) + 1 : ℝ) / (ptsPerCircle : ℝ)) : ℝ) : ℂ)) = 1 :=
    h1.symm
  have ediff : Complex.exp (Complex.I * ((2 * Real.pi * (1 / 50) : ℝ) : ℂ)) = 1 := by
    have hsub : (Complex.I * ((2 * Real.pi * (1 / 50) : ℝ) : ℂ)) =
        Complex.I * ((θ + 2 * Real.pi * (((1 : ℕ) + 1 : ℝ) / (ptsPerCircle : ℝ)) : ℝ) : ℂ) -
          Complex.I * ((θ + 2 * Real.pi * (((0 : ℕ) + 1 : ℝ) / (ptsPerCircle : ℝ)) : ℝ) : ℂ) := by
      simp only [ptsPerCircle]
      push_cast
      ring
    rw [hsub, Complex.exp_sub, e0, e1]
    norm_num
  rw [Complex.exp_eq_one_iff] at ediff
  obtain ⟨k, hk⟩ := ediff
  have hC : ((2 * Real.pi * (1 / 50) : ℝ) : ℂ) = (k : ℂ) * (2 * (Real.pi : ℂ)) := by
    apply mul_right_cancel₀ Complex.I_ne_zero
    linear_combination hk
  have hR : (2 * Real.pi * (1 / 50) : ℝ) = (k : ℝ) * (2 * Real.pi) := by
    exact_mod_cast hC
  have h2pi : (2 * Real.pi) ≠ 0 := by positivity
  have hk' : (k : ℝ) = 1 / 50 := by
    apply mul_right_cancel₀ h2pi
    linarith [hR]
  have hk0 : (0 : ℤ) < k := by
    have : (0 : ℝ) < (k : ℝ) := by rw [hk']; norm_num
    exact_mod_cast this
  have hk1 : k < 1 := by
    have : (k : ℝ) < 1 := by rw [hk']; norm_num
    exact_mod_cast this
  omega

/-! ### C1: the stored amplitude array -/

/-- The stored zero-bin amplitude: doubled, identity-sorted, then halved. -/
theorem ampsFinal_zero (n : ℕ) (x : ℕ → ℝ) :
    ampsFinal n x 0 = rfftCoeff n x 0 / (n : ℂ) := by
  rw [ampsFinal, if_pos rfl, ampsSorted, sortIdx_eq 0 (by norm_num), ampsRaw]
  ring

/-- The stored amplitude of a nonzero in-range bin: doubled and
identity-sorted. -/
theorem ampsFinal_pos (n : ℕ) (x : ℕ → ℝ) (k : ℕ) (hk1 : 1 ≤ k)
    (hk : k < 129) :
    ampsFinal n x k = 2 * rfftCoeff n x k / (n : ℂ) := by
  rw [ampsFinal, if_neg (by omega), ampsSorted, sortIdx_eq k hk, ampsRaw]

/-- C1: after a recompute with sample count `n ≤ 256` (the sort-array access
is out of range for larger `n`, so no recompute completes there) the stored
amplitude array satisfies `a[k] = 2·rfft(x)[k]/n` for every bin `1 ≤ k` of
the spectrum and `a[0] = rfft(x)[0]/n`, with the stored per-bin frequencies
ascending. -/
theorem c1_amplitudes (n : ℕ) (x : ℕ → ℝ) (hn : n ≤ 256) :
    (∀ k, 1 ≤ k → k < n / 2 + 1 →
      ampsFinal n x k = 2 * rfftCoeff n x k / (n : ℂ)) ∧
    ampsFinal n x 0 = rfftCoeff n x 0 / (n : ℂ) ∧
    (∀ i j, i ≤ j → j < 129 → fStored i ≤ fStored j) := by
  refine ⟨?_, ampsFinal_zero n x, fun i j hij hj => fStored_mono i j hij hj⟩
  intro k hk1 hk
  exact ampsFinal_pos n x k hk1 (by omega)

/-- C1 witness: the amplitude relations at the concrete recompute with
`n = 2` and the alternating signal. -/
theorem c1_amplitudes_witness :
    (∀ k, 1 ≤ k → k < 2 / 2 + 1 →
      ampsFinal 2 cexSignal k = 2 * rfftCoeff 2 cexSignal k / ((2 : ℕ) : ℂ)) ∧
    ampsFinal 2 cexSignal 0 = rfftCoeff 2 cexSignal 0 / ((2 : ℕ) : ℂ) ∧
    (∀ i j, i ≤ j → j < 129 → fStored i ≤ fStored j) :=
  c1_amplitudes 2 cexSignal (by norm_num)

/-! ### C3: the round trip at rotation counter 0

At `i = 0` every phasor is unrotated, so the terminal chain vertex is the
plain sum of the stored amplitudes.  Summing the one-sided amplitudes (zero
bin halved, all other bins doubled) double-counts the Nyquist bin of an
even-length signal, so the real part of the terminal vertex is
`x 0 + (Σ_m (-1)^m x m)/n`, not `x 0`. -/

/-- The `k`-th term of the transform exponential is the `k`-th power of the
primitive root attached to sample `m`. -/
theorem rfft_exp_pow (n k m : ℕ) :
    Complex.exp (-2 * (Real.pi : ℂ) * Complex.I * (k : ℂ) * (m : ℂ) / (n : ℂ)) =
      Complex.exp (-2 * (Real.pi : ℂ) * Complex.I * (m : ℂ) / (n : ℂ)) ^ k := by
  rw [← Complex.exp_nat_mul]
  congr 1
  ring

/-- The root attached to sample `m` has `n`-th power one. -/
theorem root_pow_self (n m : ℕ) (hn : 0 < n) :
    Complex.exp (-2 * (Real.pi : ℂ) * Complex.I * (m : ℂ) / (n : ℂ)) ^ n = 1 := by
  rw [← Complex.exp_nat_mul]
  have hn0 : (n : ℂ) ≠ 0 := by
    exact_mod_cast Nat.pos_iff_ne_zero.mp hn
  have harg : (n : ℂ) * (-2 * (Real.pi : ℂ) * Complex.I * (m : ℂ) / (n : ℂ)) =
      ((-(m : ℤ) : ℤ) : ℂ) * (2 * (Real.pi : ℂ) * Complex.I) := by
    push_cast
    field_simp
    ring
  rw [harg, Complex.exp_int_mul_two_pi_mul_I]

/-- The root attached to a sample `0 < m < n` is a nontrivial root of
unity. -/
theorem root_ne_one (n m : ℕ) (h0 : 0 < m) (hmn : m < n) :
    Complex.exp (-2 * (Real.pi : ℂ) * Complex.I * (m : ℂ) / (n : ℂ)) ≠ 1 := by
  intro h
  rw [Complex.exp_eq_one_iff] at h
  obtain ⟨k, hk⟩ := h
  have hnR : (0 : ℝ) < n := by exact_mod_cast h0.trans hmn
  have h2piI : (2 * (Real.pi : ℂ) * Complex.I) ≠ 0 := by
    refine mul_ne_zero (mul_ne_zero two_ne_zero ?_) Complex.I_ne_zero
    exact_mod_cast Real.pi_ne_zero
  have hC : (-(m : ℂ) / (n : ℂ)) = (k : ℂ) := by
    apply mul_right_cancel₀ h2piI
    linear_combination hk
  have hR : (-(m : ℝ) / (n : ℝ)) = (k : ℝ) := by exact_mod_cast hC
  have hmR : (0 : ℝ) < m := by exact_mod_cast h0
  have hlt : (-(m : ℝ) / (n : ℝ)) < 0 :=
    div_neg_of_neg_of_pos (by linarith) hnR
  have hgt : (-1 : ℝ) < (-(m : ℝ) / (n : ℝ)) := by
    rw [neg_div, neg_lt_neg_iff, div_lt_one hnR]
    exact_mod_cast hmn
  have hk0 : k < 0 := by exact_mod_cast hR ▸ hlt
  have hk1 : (-1 : ℤ) < k := by exact_mod_cast hR ▸ hgt
  omega

/-- Geometric-sum orthogonality: for `0 < m < n` the column sum of the
transform kernel vanishes. -/
theorem sum_root_eq_zero (n m : ℕ) (h0 : 0 < m) (hmn : m < n) :
    ∑ k in Finset.range n,
      Complex.exp (-2 * (Real.pi : ℂ) * Complex.I * (k : ℂ) * (m : ℂ) / (n : ℂ)) = 0 := by
  rw [Finset.sum_congr rfl (fun k _ => rfft_exp_pow n k m)]
  rw [geom_sum_eq (root_ne_one n m h0 hmn), root_pow_self n m (h0.trans hmn)]
  simp

/-- The sum of all `n` transform bins recovers `n` times the first sample. -/
theorem sum_rfft (n : ℕ) (x : ℕ → ℝ) (hn : 0 < n) :
    ∑ k in Finset.range n, rfftCoeff n x k = (n : ℂ) * ((x 0 : ℝ) : ℂ) := by
  simp only [rfftCoeff]
  rw [Finset.sum_comm]
  rw [Finset.sum_eq_single_of_mem 0 (Finset.mem_range.mpr hn)]
  · have hterm : ∀ k ∈ Finset.range n,
        ((x 0 : ℝ) : ℂ) * Complex.exp
          (-2 * (Real.pi : ℂ) * Complex.I * (k : ℂ) * ((0 : ℕ) : ℂ) / (n : ℂ)) =
        ((x 0 : ℝ) : ℂ) := by
      intro k _
      norm_num
    rw [Finset.sum_congr rfl hterm, Finset.sum_const, Finset.card_range,
      nsmul_eq_mul]
  · intro m hm hm0
    rw [← Finset.mul_sum, sum_root_eq_zero n m (Nat.pos_of_ne_zero hm0)
      (Finset.mem_range.mp hm), mul_zero]

/-- Conjugation symmetry of the transform of a real signal:
`conj X[k] = X[n-k]` for `k ≤ n`. -/
theorem rfft_conj (n k : ℕ) (x : ℕ → ℝ) (hn : 0 < n) (hk : k ≤ n) :
    (starRingEnd ℂ) (rfftCoeff n x k) = rfftCoeff n x (n - k) := by
  rw [rfftCoeff, rfftCoeff, map_sum]
  apply Finset.sum_congr rfl
  intro m _
  rw [map_mul, Complex.conj_ofReal]
  congr 1
  rw [← Complex.exp_conj]
  have hconj : (starRingEnd ℂ)
      (-2 * (Real.pi : ℂ) * Complex.I * (k : ℂ) * (m : ℂ) / (n : ℂ)) =
      2 * (Real.pi : ℂ) * Complex.I * (k : ℂ) * (m : ℂ) / (n : ℂ) := by
    simp [map_div₀, map_mul, map_neg, map_ofNat, Complex.conj_I,
      Complex.conj_ofReal]
  rw [hconj]
  have hn0 : (n : ℂ) ≠ 0 := by exact_mod_cast Nat.pos_iff_ne_zero.mp hn
  have hsplit : (-2 * (Real.pi : ℂ) * Complex.I * ((n - k : ℕ) : ℂ) * (m : ℂ) / (n : ℂ)) =
      2 * (Real.pi : ℂ) * Complex.I * (k : ℂ) * (m : ℂ) / (n : ℂ) +
        ((-(m : ℤ) : ℤ) : ℂ) * (2 * (Real.pi : ℂ) * Complex.I) := by
    have hcast : ((n - k : ℕ) : ℂ) = (n : ℂ) - (k : ℂ) := by
      push_cast [hk]
      ring
    rw [hcast]
    field_simp
    ring
  rw [hsplit, Complex.exp_add, Complex.exp_int_mul_two_pi_mul_I, mul_one]

/-- At `i = 0` every rotated amplitude is the amplitude itself. -/
theorem rotAmp_izero (a : ℕ → ℂ) (f : ℕ → ℝ) (j : ℕ) :
    rotAmp a f 0 j = a j := by
  rw [rotAmp]
  push_cast
  simp

/-- At `i = 0` the chain vertex of harmonic 0 is `a 0`, for any frequency
array. -/
theorem vertex_zero_izero (a : ℕ → ℂ) (f : ℕ → ℝ) (ε : ℝ) :
    vertex a f 0 ε 0 = a 0 := by
  rw [vertex]
  push_cast
  simp

/-- At `i = 0` the last outline cell of every harmonic equals its chain
vertex, for any frequency array. -/
theorem outline_last_eq_vertex_izero (a : ℕ → ℂ) (f : ℕ → ℝ) (ε : ℝ)
    (j : ℕ) :
    outline a f 0 ε j (ptsPerCircle - 1) = vertex a f 0 ε j := by
  cases j with
  | zero => rw [outline_zero, vertex_zero_izero]
  | succ j => exact outline_last_succ a f 0 ε j

/-- At `i = 0` the chain vertex of harmonic `j` is the plain sum of the
stored amplitudes up to `j`. -/
theorem vertex_sum_izero (a : ℕ → ℂ) (f : ℕ → ℝ) (ε : ℝ) (j : ℕ) :
    vertex a f 0 ε j = ∑ l in Finset.range (j + 1), a l := by
  induction j with
  | zero =>
      rw [vertex_zero_izero, Finset.sum_range_one]
  | succ j ih =>
      have hstep : vertex a f 0 ε (j + 1) = a (j + 1) + vertex a f 0 ε j := by
        rw [vertex, outline_last_eq_vertex_izero, rotAmp_izero]
      rw [hstep, ih]
      conv_rhs => rw [Finset.sum_range_succ]
      ring

/-- For any resolution within the allocated buffer, `get_end_point` returns
the last outline cell of the last active harmonic. -/
theorem endPoint_eq_outline (a : ℕ → ℂ) (f : ℕ → ℝ) (i : ℤ) (ε : ℝ)
    (res : ℕ) (hres : res ≤ 129) :
    endPoint a f i ε res = outline a f i ε (res - 1) (ptsPerCircle - 1) := by
  rw [endPoint, circlesBuf, if_neg]
  simp only [bufLen, ptsPerCircle]
  omega

/-- The Nyquist bin of an even-length transform is the alternating sum of
the samples. -/
theorem rfft_nyquist (h : ℕ) (hh : 1 ≤ h) (x : ℕ → ℝ) :
    rfftCoeff (2 * h) x h =
      ((∑ m in Finset.range (2 * h), (-1 : ℝ) ^ m * x m : ℝ) : ℂ) := by
  rw [rfftCoeff]
  push_cast
  apply Finset.sum_congr rfl
  intro m _
  rw [mul_comm ((-1 : ℂ) ^ m) ((x m : ℝ) : ℂ)]
  congr 1
  have hharg : (-2 * (Real.pi : ℂ) * Complex.I * (h : ℂ) * (m : ℂ) / (2 * (h : ℂ))) =
      (m : ℂ) * (-((Real.pi : ℂ) * Complex.I)) := by
    have hh0 : ((h : ℕ) : ℂ) ≠ 0 := by
      exact_mod_cast Nat.pos_iff_ne_zero.mp hh
    field_simp
    ring
  rw [hharg, Complex.exp_nat_mul, Complex.exp_neg, Complex.exp_pi_mul_I]
  norm_num

/-- C3 amended: for an even sample count `n = 2h ≤ 256`, recomputing the
one-sided coefficients and summing the full phasor chain (resolution
`n//2+1`) at rotation counter `i = 0` yields a terminal vertex whose real
part is `x 0` **plus the Nyquist correction** `(Σ_m (-1)^m·x m)/n`: the
one-sided doubling double-counts the Nyquist bin, so the round trip is
exact precisely when that alternating sum vanishes. -/
theorem c3_roundtrip_amended (x : ℕ → ℝ) (f : ℕ → ℝ) (ε : ℝ) (h : ℕ)
    (hh : 1 ≤ h) (hn : 2 * h ≤ 256) :
    (endPoint (ampsFinal (2 * h) x) f 0 ε (2 * h / 2 + 1)).re =
      x 0 + (∑ m in Finset.range (2 * h), (-1 : ℝ) ^ m * x m) / ((2 * h : ℕ) : ℝ) := by
  have hres : 2 * h / 2 + 1 = h + 1 := by omega
  have hres129 : h + 1 ≤ 129 := by omega
  have hn0 : 0 < 2 * h := by omega
  rw [hres, endPoint_eq_outline _ _ _ _ _ hres129]
  have hsub1 : h + 1 - 1 = h := rfl
  rw [hsub1, outline_last_eq_vertex_izero, vertex_sum_izero]
  -- the chain sum of the stored amplitudes
  have hsum : ∑ l in Finset.range (h + 1), ampsFinal (2 * h) x l =
      (rfftCoeff (2 * h) x 0 +
        2 * ∑ l in Finset.range h, rfftCoeff (2 * h) x (l + 1)) / ((2 * h : ℕ) : ℂ) := by
    rw [Finset.sum_range_succ']
    rw [ampsFinal_zero]
    have hterm : ∀ l ∈ Finset.range h,
        ampsFinal (2 * h) x (l + 1) =
          2 * rfftCoeff (2 * h) x (l + 1) / ((2 * h : ℕ) : ℂ) := by
      intro l hl
      exact ampsFinal_pos (2 * h) x (l + 1) (by omega)
        (by have := Finset.mem_range.mp hl; omega)
    rw [Finset.sum_congr rfl hterm, ← Finset.sum_div, Finset.mul_sum,
      add_div]
    ring
  rw [hsum]
  -- real part of the division by the (real) sample count
  have hcast : ((2 * h : ℕ) : ℂ) = (((2 * h : ℕ) : ℝ) : ℂ) := by push_cast; ring
  rw [hcast, Complex.div_ofReal_re]
  -- conjugation pairing: the doubled sum has the real part of the
  -- two-sided sum plus the Nyquist bin
  have hA : (starRingEnd ℂ) (∑ l in Finset.range h, rfftCoeff (2 * h) x (2 * h - (l + 1))) =
      ∑ l in Finset.range h, rfftCoeff (2 * h) x (l + 1) := by
    rw [map_sum]
    apply Finset.sum_congr rfl
    intro l hl
    have hl' := Finset.mem_range.mp hl
    have hle : 2 * h - (l + 1) ≤ 2 * h := by omega
    rw [rfft_conj (2 * h) (2 * h - (l + 1)) x hn0 hle]
    congr 1
    omega
  have hreA : (∑ l in Finset.range h, rfftCoeff (2 * h) x (l + 1)).re =
      (∑ l in Finset.range h, rfftCoeff (2 * h) x (2 * h - (l + 1))).re := by
    rw [← hA, Complex.conj_re]
  -- reindex the reflected sum
  have hB : ∑ l in Finset.range h, rfftCoeff (2 * h) x (2 * h - (l + 1)) =
      ∑ l in Finset.range h, rfftCoeff (2 * h) x (h + l) := by
    rw [← Finset.sum_range_reflect (fun t => rfftCoeff (2 * h) x (h + t)) h]
    apply Finset.sum_congr rfl
    intro l hl
    have hl' := Finset.mem_range.mp hl
    congr 1
    omega
  -- assemble the two-sided sum
  have htwo : rfftCoeff (2 * h) x 0 +
      (∑ l in Finset.range h, rfftCoeff (2 * h) x (l + 1)) +
      (∑ l in Finset.range h, rfftCoeff (2 * h) x (h + l)) =
      (∑ k in Finset.range (2 * h), rfftCoeff (2 * h) x k) +
        rfftCoeff (2 * h) x h := by
    have hfirst : rfftCoeff (2 * h) x 0 +
        (∑ l in Finset.range h, rfftCoeff (2 * h) x (l + 1)) =
        ∑ l in Finset.range (h + 1), rfftCoeff (2 * h) x l := by
      rw [Finset.sum_range_succ']
      ring
    have hsplit2 : ∑ k in Finset.range (2 * h), rfftCoeff (2 * h) x k =
        (∑ k in Finset.range h, rfftCoeff (2 * h) x k) +
          ∑ k in Finset.range h, rfftCoeff (2 * h) x (h + k) := by
      have h2 : 2 * h = h + h := by omega
      rw [h2, Finset.sum_range_add]
    rw [hfirst, Finset.sum_range_succ, hsplit2]
    ring
  -- take real parts
  have hre : (rfftCoeff (2 * h) x 0 +
      2 * ∑ l in Finset.range h, rfftCoeff (2 * h) x (l + 1)).re =
      ((∑ k in Finset.range (2 * h), rfftCoeff (2 * h) x k) +
        rfftCoeff (2 * h) x h).re := by
    rw [← htwo]
    simp only [Complex.add_re, Complex.mul_re]
    have h2re : ((2 : ℂ)).re = 2 := by norm_num
    have h2im : ((2 : ℂ)).im = 0 := by norm_num
    rw [h2re, h2im]
    rw [hreA, hB]
    ring
  rw [hre, Complex.add_re, sum_rfft (2 * h) x hn0, rfft_nyquist h hh x]
  have hnR : (((2 * h : ℕ)) : ℝ) ≠ 0 := by
    have : (0 : ℝ) < ((2 * h : ℕ) : ℝ) := by exact_mod_cast hn0
    linarith
  have hmulre : (((2 * h : ℕ) : ℂ) * ((x 0 : ℝ) : ℂ)).re = ((2 * h : ℕ) : ℝ) * x 0 := by
    have : ((2 * h : ℕ) : ℂ) * ((x 0 : ℝ) : ℂ) = (((((2 * h : ℕ) : ℝ)) * x 0 : ℝ) : ℂ) := by
      push_cast
      ring
    rw [this, Complex.ofReal_re]
  rw [hmulre, Complex.ofReal_re]
  field_simp
  ring

/-- C3 amended witness: the Nyquist-corrected round trip at the concrete
constant-zero signal with `h = 1`. -/
theorem c3_roundtrip_amended_witness :
    (endPoint (ampsFinal (2 * 1) (fun _ => 0)) fStored 0 0 (2 * 1 / 2 + 1)).re =
      (fun _ => (0 : ℝ)) 0 +
        (∑ m in Finset.range (2 * 1), (-1 : ℝ) ^ m * (fun _ => (0 : ℝ)) m) /
          ((2 * 1 : ℕ) : ℝ) :=
  c3_roundtrip_amended (fun _ => 0) fStored 0 1 (by norm_num) (by norm_num)

/-- C3 counterexample: for the sampled signal `[1, -1]` (length `n = 2`,
full resolution `n//2+1 = 2`, the constructor epsilon) the terminal chain
vertex at rotation counter `0` has real part `2`, while the signal's value
at the first sample is `1`: the round trip misses by the doubled Nyquist
bin, far beyond floating-point tolerance. -/
theorem c3_counterexample :
    (endPoint (ampsFinal 2 cexSignal) fStored 0 epsilonInit (2 / 2 + 1)).re = 2 ∧
    cexSignal 0 = 1 ∧ (2 : ℝ) ≠ 1 := by
  refine ⟨?_, by norm_num [cexSignal], by norm_num⟩
  have hX0 : rfftCoeff 2 cexSignal 0 = 0 := by
    rw [rfftCoeff, Finset.sum_range_succ, Finset.sum_range_succ,
      Finset.sum_range_zero]
    norm_num [cexSignal]
  have hexp1 : Complex.exp (-(2 * (Real.pi : ℂ) * Complex.I) / 2) = -1 := by
    have harg : (-(2 * (Real.pi : ℂ) * Complex.I) / 2) =
        -((Real.pi : ℂ) * Complex.I) := by
      ring
    rw [harg, Complex.exp_neg, Complex.exp_pi_mul_I]
    norm_num
  have hX1 : rfftCoeff 2 cexSignal 1 = 2 := by
    rw [rfftCoeff, Finset.sum_range_succ, Finset.sum_range_succ,
      Finset.sum_range_zero]
    norm_num [cexSignal, hexp1]
  have hend : endPoint (ampsFinal 2 cexSignal) fStored 0 epsilonInit 2 = 2 := by
    rw [endPoint_eq_outline _ _ _ _ 2 (by norm_num)]
    have h21 : (2 : ℕ) - 1 = 0 + 1 := rfl
    rw [h21, outline, drawCirclePoint, if_neg (collapse_condition_false _)]
    rw [outline_zero, rotAmp_izero, genCircle_last, mul_one]
    rw [ampsFinal_zero, ampsFinal_pos 2 cexSignal (0 + 1) (by norm_num) (by norm_num),
      hX0, hX1]
    norm_num
  rw [show (2 / 2 + 1 : ℕ) = 2 by norm_num, hend]
  norm_num

/-! ### C9: default parameter values

The claim is a refinement statement: `get_default_values` assigns `1.0`
exactly to the parameters satisfying the spec's structural predicate
(`specMultiplies`, modelled from the spec's words).  The sufficiency
direction holds on canonical expressions; the necessity direction fails,
because `multiplies_var`'s `expr.has(arg1*arg2)` test goes through sympy's
automatic merging of same-base powers and can match an unrelated product
subexpression. -/

/-- Membership form of `hasSymL`. -/
theorem hasSymL_iff (s : String) (l : List SExpr) :
    hasSymL s l = true ↔ ∃ x ∈ l, hasSym s x = true := by
  induction l with
  | nil => simp [hasSymL]
  | cons x xs ih => simp [hasSymL, Bool.or_eq_true, ih]

/-- Membership form of `preorderL`. -/
theorem mem_preorderL (sub : SExpr) (l : List SExpr) :
    sub ∈ preorderL l ↔ ∃ c ∈ l, sub ∈ preorder c := by
  induction l with
  | nil => simp [preorderL]
  | cons x xs ih => simp [preorderL, List.mem_append, ih]

/-- Every expression heads its own preorder traversal. -/
theorem self_mem_preorder (e : SExpr) : e ∈ preorder e := by
  cases e <;> simp [preorder]

/-- A symbol contained in any node of the traversal is contained in the
whole expression. -/
theorem hasSym_of_mem_preorder (s : String) :
    ∀ (N : ℕ) (e : SExpr), sizeOf e < N → ∀ sub ∈ preorder e,
      hasSym s sub = true → hasSym s e = true
  | 0, e => by
      intro h
      omega
  | N + 1, e => by
    intro hN sub hsub hhs
    cases e with
    | sym t =>
        simp only [preorder, List.mem_singleton] at hsub
        rwa [hsub] at hhs
    | num t =>
        simp only [preorder, List.mem_singleton] at hsub
        rwa [hsub] at hhs
    | add l =>
        rcases List.mem_cons.mp hsub with heq | hmem
        · rwa [heq] at hhs
        · obtain ⟨c, hc, hsubc⟩ := (mem_preorderL sub l).mp hmem
          have hsize : sizeOf c < N := by
            have h1 := List.sizeOf_lt_of_mem hc
            have h2 : sizeOf (SExpr.add l) = 1 + sizeOf l := by simp
            omega
          have hc' := hasSym_of_mem_preorder s N c hsize sub hsubc hhs
          exact (hasSymL_iff s l).mpr ⟨c, hc, hc'⟩
    | mul l =>
        rcases List.mem_cons.mp hsub with heq | hmem
        · rwa [heq] at hhs
        · obtain ⟨c, hc, hsubc⟩ := (mem_preorderL sub l).mp hmem
          have hsize : sizeOf c < N := by
            have h1 := List.sizeOf_lt_of_mem hc
            have h2 : sizeOf (SExpr.mul l) = 1 + sizeOf l := by simp
            omega
          have hc' := hasSym_of_mem_preorder s N c hsize sub hsubc hhs
          exact (hasSymL_iff s l).mpr ⟨c, hc, hc'⟩
    | pow b e2 =>
        rcases List.mem_cons.mp hsub with heq | hmem
        · rwa [heq] at hhs
        · have hsz : sizeOf (SExpr.pow b e2) = 1 + sizeOf b + sizeOf e2 := by simp
          rcases List.mem_append.mp hmem with hb | he2
          · have hc' := hasSym_of_mem_preorder s N b (by omega) sub hb hhs
            show (hasSym s b || hasSym s e2) = true
            rw [hc']
            rfl
          · have hc' := hasSym_of_mem_preorder s N e2 (by omega) sub he2 hhs
            show (hasSym s b || hasSym s e2) = true
            rw [hc', Bool.or_true]
    | fn g l =>
        rcases List.mem_cons.mp hsub with heq | hmem
        · rwa [heq] at hhs
        · obtain ⟨c, hc, hsubc⟩ := (mem_preorderL sub l).mp hmem
          have hsize : sizeOf c < N := by
            have h1 := List.sizeOf_lt_of_mem hc
            have h2 : sizeOf (SExpr.fn g l) = 1 + sizeOf g + sizeOf l := by simp
            omega
          have hc' := hasSym_of_mem_preorder s N c hsize sub hsubc hhs
          exact (hasSymL_iff s l).mpr ⟨c, hc, hc'⟩

/-- Canonicity descends to the members of an argument list. -/
theorem canonL_mem (l : List SExpr) (c : SExpr) (hc : c ∈ l)
    (h : canonL l = true) : canonE c = true := by
  induction l with
  | nil => simp at hc
  | cons x xs ih =>
      rw [canonL, Bool.and_eq_true] at h
      rcases List.mem_cons.mp hc with rfl | hx
      · exact h.1
      · exact ih hx h.2

/-- `distinctBases` gives the pairwise distinct-base property. -/
theorem distinctBases_pairwise (l : List SExpr) (h : distinctBases l = true) :
    l.Pairwise (fun a b => sbase a ≠ sbase b) := by
  induction l with
  | nil => exact List.Pairwise.nil
  | cons x xs ih =>
      rw [distinctBases, Bool.and_eq_true] at h
      refine List.Pairwise.cons ?_ (ih h.2)
      intro y hy
      have hb := List.all_eq_true.mp h.1 y hy
      have hne : sbase y ≠ sbase x := by simpa using hb
      exact fun heq => hne heq.symm

/-- Distinct bases force distinct factors. -/
theorem distinctBases_nodup (l : List SExpr) (h : distinctBases l = true) :
    l.Nodup :=
  (distinctBases_pairwise l h).imp (fun hne heq => hne (by rw [heq]))

/-- A non-`Mul` expression is its own factor list. -/
theorem factors_eq_single (e : SExpr) (h : isMul e = false) :
    factors e = [e] := by
  cases e <;> simp_all [factors, isMul]

/-- The product of two non-`Mul` factors with distinct bases does not merge:
it is the plain two-factor `Mul`. -/
theorem mulProd_of_distinct (u v : SExpr) (hu : isMul u = false)
    (hv : isMul v = false) (hne : sbase u ≠ sbase v) :
    mulProd u v = .mul [u, v] := by
  rw [mulProd, factors_eq_single u hu, factors_eq_single v hv]
  have hbeq : (sbase u == sbase v) = false := beq_eq_false_iff_ne.mpr hne
  show mkMul (mulMerge [u, v]) = .mul [u, v]
  have h1 : mulMerge [u, v] = [u, v] := by
    simp [mulMerge, mulMergeIns, hbeq]
  rw [h1]
  rfl

/-- A `Mul` pattern matches a `Mul` node containing all of its factors. -/
theorem matchPat_mul_subset (gs fs : List SExpr) (h : ∀ f ∈ fs, f ∈ gs) :
    matchPat (.mul gs) (.mul fs) = true := by
  show fs.all (fun f => gs.contains f) = true
  rw [List.all_eq_true]
  intro f hf
  exact List.elem_iff.mpr (h f hf)

/-- `has` succeeds as soon as one traversal node matches. -/
theorem hasPat_of_mem (e sub pat : SExpr) (hmem : sub ∈ preorder e)
    (hm : matchPat sub pat = true) : hasPat e pat = true := by
  rw [hasPat, List.any_eq_true]
  exact ⟨sub, hmem, hm⟩

/-- Membership form of the recursion clause of `multiplies_var`. -/
theorem mvList_iff (main arb : String) (l : List SExpr) :
    mvList main arb l = true ↔ ∃ c ∈ l,
      (hasSym main c && !(c == SExpr.sym main) && multipliesVar main arb c) = true := by
  induction l with
  | nil => simp [mvList]
  | cons x xs ih => simp [mvList, Bool.or_eq_true, ih]

/-- The per-node check of `multiplies_var` succeeds on a canonical `Mul`
node that has the parameter (or a power containing it) and a main-variable
factor at distinct positions. -/
theorem nodeHit_of_spec (main arb : String) (gs : List SExpr) (u v : SExpr)
    (hcanon : canonE (.mul gs) = true)
    (hu : u ∈ gs) (hqual : (u == SExpr.sym arb || (u.isPow && hasSym arb u)) = true)
    (hv : v ∈ gs.erase u) (hmain : hasSym main v = true) :
    nodeHit main arb (.mul gs) gs = true := by
  have hc0 : (gs.all (fun g => !isMul g) && distinctBases gs && canonL gs) = true :=
    hcanon
  rw [Bool.and_eq_true, Bool.and_eq_true] at hc0
  obtain ⟨⟨hnomul, hdb⟩, -⟩ := hc0
  have hnodup : gs.Nodup := distinctBases_nodup gs hdb
  have hvgs : v ∈ gs := List.mem_of_mem_erase hv
  have hvne : v ≠ u := ((List.Nodup.mem_erase_iff hnodup).mp hv).1
  have hbase : sbase v ≠ sbase u := by
    have hp := distinctBases_pairwise gs hdb
    have hsymm : Symmetric (fun a b : SExpr => sbase a ≠ sbase b) :=
      fun a b hab heq => hab heq.symm
    exact hp.forall hsymm hvgs hu hvne
  have humul : isMul u = false := by
    simpa using List.all_eq_true.mp hnomul u hu
  have hvmul : isMul v = false := by
    simpa using List.all_eq_true.mp hnomul v hvgs
  have hprod : mulProd v u = .mul [v, u] :=
    mulProd_of_distinct v u hvmul humul hbase
  have hpat : hasPat (.mul gs) (mulProd v u) = true := by
    rw [hprod]
    refine hasPat_of_mem _ _ _ (self_mem_preorder _) (matchPat_mul_subset gs [v, u] ?_)
    intro f hf
    rcases List.mem_cons.mp hf with rfl | hf2
    · exact hvgs
    · rcases List.mem_singleton.mp hf2 with rfl
      exact hu
  rw [nodeHit, List.any_eq_true]
  refine ⟨v, hvgs, ?_⟩
  rw [Bool.and_eq_true]
  refine ⟨hmain, ?_⟩
  rw [List.any_eq_true]
  exact ⟨u, hu, by rw [Bool.and_eq_true]; exact ⟨hqual, hpat⟩⟩

/-- The recursion clause of `multiplies_var` fires on a qualifying child. -/
theorem mvList_of_descend (main arb : String) (l : List SExpr) (c : SExpr)
    (hc : c ∈ l) (hmv : multipliesVar main arb c = true)
    (hsym : hasSym main c = true) (hneq : (c == SExpr.sym main) = false) :
    mvList main arb l = true :=
  (mvList_iff main arb l).mpr
    ⟨c, hc, by rw [Bool.and_eq_true, Bool.and_eq_true, hneq]; exact ⟨⟨hsym, rfl⟩, hmv⟩⟩

/-- The spec predicate holds at any expression whose traversal contains the
witnessing `Mul` node. -/
theorem specMultiplies_of_node (main arb : String) (c : SExpr)
    (gs : List SExpr) (u v : SExpr) (hsubc : (.mul gs) ∈ preorder c)
    (hu : u ∈ gs)
    (hqual : (u == SExpr.sym arb || (u.isPow && hasSym arb u)) = true)
    (hv : v ∈ gs.erase u) (hmain : hasSym main v = true) :
    specMultiplies main arb c = true := by
  rw [specMultiplies, List.any_eq_true]
  refine ⟨SExpr.mul gs, hsubc, List.any_eq_true.mpr ⟨u, hu, ?_⟩⟩
  show ((u == SExpr.sym arb || (u.isPow && hasSym arb u)) &&
    (gs.erase u).any fun v => hasSym main v) = true
  rw [Bool.and_eq_true]
  exact ⟨hqual, List.any_eq_true.mpr ⟨v, hv, hmain⟩⟩

/-- A node whose traversal contains a `Mul` is not the bare main-variable
symbol. -/
theorem ne_sym_of_mul_mem_preorder (c : SExpr) (gs : List SExpr)
    (main : String) (hsubc : (.mul gs) ∈ preorder c) :
    (c == SExpr.sym main) = false := by
  rw [beq_eq_false_iff_ne]
  intro hceq
  rw [hceq] at hsubc
  simp [preorder] at hsubc

/-- A node whose traversal contains the witnessing `Mul` contains the main
variable. -/
theorem hasSym_main_of_sub (main : String) (N : ℕ) (c : SExpr)
    (hsize : sizeOf c < N) (gs : List SExpr) (u v : SExpr)
    (hsubc : (.mul gs) ∈ preorder c) (hv : v ∈ gs.erase u)
    (hmain : hasSym main v = true) : hasSym main c = true := by
  have hvgs := List.mem_of_mem_erase hv
  have hmul : hasSym main (.mul gs) = true :=
    (hasSymL_iff main gs).mpr ⟨v, hvgs, hmain⟩
  exact hasSym_of_mem_preorder main N c hsize (.mul gs) hsubc hmul

/-- Sufficiency of the spec predicate on canonical expressions: whenever the
parameter multiplies (possibly through a power) a sub-expression containing
the main variable at a distinct factor position of some `Mul` node,
`multiplies_var` returns `True`. -/
theorem spec_imp_mv : ∀ (N : ℕ) (e : SExpr), sizeOf e < N →
    canonE e = true → ∀ main arb, specMultiplies main arb e = true →
    multipliesVar main arb e = true
  | 0, e => by
      intro h _ _ _ _
      omega
  | N + 1, e => by
    intro hN hcanon main arb hspec
    rw [specMultiplies, List.any_eq_true] at hspec
    obtain ⟨sub, hsubmem, hsubP⟩ := hspec
    cases sub with
    | sym t => simp at hsubP
    | num t => simp at hsubP
    | add l2 => simp at hsubP
    | pow b2 e2 => simp at hsubP
    | fn g2 l2 => simp at hsubP
    | mul gs =>
      have hsubP' : (gs.any fun u =>
          (u == SExpr.sym arb || (u.isPow && hasSym arb u)) &&
            (gs.erase u).any fun v => hasSym main v) = true := hsubP
      rw [List.any_eq_true] at hsubP'
      obtain ⟨u, hu, hcond⟩ := hsubP'
      rw [Bool.and_eq_true] at hcond
      obtain ⟨hqual, herase⟩ := hcond
      rw [List.any_eq_true] at herase
      obtain ⟨v, hv, hmain⟩ := herase
      cases e with
      | sym t => simp [preorder] at hsubmem
      | num t => simp [preorder] at hsubmem
      | add l =>
          rcases List.mem_cons.mp hsubmem with heq | hmem
          · exact absurd heq (by simp)
          · obtain ⟨c, hc, hsubc⟩ := (mem_preorderL _ l).mp hmem
            have hsize : sizeOf c < N := by
              have h1 := List.sizeOf_lt_of_mem hc
              have h2 : sizeOf (SExpr.add l) = 1 + sizeOf l := by simp
              omega
            have hcanc : canonE c = true := canonL_mem l c hc hcanon
            have hspecc :=
              specMultiplies_of_node main arb c gs u v hsubc hu hqual hv hmain
            have hmv := spec_imp_mv N c hsize hcanc main arb hspecc
            have hsym := hasSym_main_of_sub main N c hsize gs u v hsubc hv hmain
            have hne := ne_sym_of_mul_mem_preorder c gs main hsubc
            have hlist := mvList_of_descend main arb l c hc hmv hsym hne
            show (nodeHit main arb (.add l) l || mvList main arb l) = true
            rw [hlist, Bool.or_true]
      | mul l =>
          rcases List.mem_cons.mp hsubmem with heq | hmem
          · cases heq
            have hhit := nodeHit_of_spec main arb gs u v hcanon hu hqual hv hmain
            show (nodeHit main arb (.mul gs) gs || mvList main arb gs) = true
            rw [hhit]
            rfl
          · obtain ⟨c, hc, hsubc⟩ := (mem_preorderL _ l).mp hmem
            have hsize : sizeOf c < N := by
              have h1 := List.sizeOf_lt_of_mem hc
              have h2 : sizeOf (SExpr.mul l) = 1 + sizeOf l := by simp
              omega
            have hcanL : canonL l = true := by
              have hc0 : (l.all (fun g => !isMul g) && distinctBases l && canonL l) = true :=
                hcanon
              rw [Bool.and_eq_true, Bool.and_eq_true] at hc0
              exact hc0.2
            have hcanc : canonE c = true := canonL_mem l c hc hcanL
            have hspecc :=
              specMultiplies_of_node main arb c gs u v hsubc hu hqual hv hmain
            have hmv := spec_imp_mv N c hsize hcanc main arb hspecc
            have hsym := hasSym_main_of_sub main N c hsize gs u v hsubc hv hmain
            have hne := ne_sym_of_mul_mem_preorder c gs main hsubc
            have hlist := mvList_of_descend main arb l c hc hmv hsym hne
            show (nodeHit main arb (.mul l) l || mvList main arb l) = true
            rw [hlist, Bool.or_true]
      | pow b e2 =>
          rcases List.mem_cons.mp hsubmem with heq | hmem
          · exact absurd heq (by simp)
          · have hsz : sizeOf (SExpr.pow b e2) = 1 + sizeOf b + sizeOf e2 := by
              simp
            have hcbe : canonE b = true ∧ canonE e2 = true := by
              have h0 : (canonE b && canonE e2) = true := hcanon
              rw [Bool.and_eq_true] at h0
              exact h0
            obtain ⟨hcb, hce⟩ := hcbe
            rcases List.mem_append.mp hmem with hsubc | hsubc
            · have hsize : sizeOf b < N := by omega
              have hspecc :=
                specMultiplies_of_node main arb b gs u v hsubc hu hqual hv hmain
              have hmv := spec_imp_mv N b hsize hcb main arb hspecc
              have hsym := hasSym_main_of_sub main N b hsize gs u v hsubc hv hmain
              have hne := ne_sym_of_mul_mem_preorder b gs main hsubc
              have hd : (hasSym main b && !(b == SExpr.sym main) &&
                  multipliesVar main arb b) = true := by
                rw [hsym, hne, hmv]
                rfl
              show (nodeHit main arb (.pow b e2) [b, e2] ||
                ((hasSym main b && !(b == SExpr.sym main) && multipliesVar main arb b) ||
                  (hasSym main e2 && !(e2 == SExpr.sym main) && multipliesVar main arb e2))) = true
              rw [hd]
              simp
            · have hsize : sizeOf e2 < N := by omega
              have hspecc :=
                specMultiplies_of_node main arb e2 gs u v hsubc hu hqual hv hmain
              have hmv := spec_imp_mv N e2 hsize hce main arb hspecc
              have hsym := hasSym_main_of_sub main N e2 hsize gs u v hsubc hv hmain
              have hne := ne_sym_of_mul_mem_preorder e2 gs main hsubc
              have hd : (hasSym main e2 && !(e2 == SExpr.sym main) &&
                  multipliesVar main arb e2) = true := by
                rw [hsym, hne, hmv]
                rfl
              show (nodeHit main arb (.pow b e2) [b, e2] ||
                ((hasSym main b && !(b == SExpr.sym main) && multipliesVar main arb b) ||
                  (hasSym main e2 && !(e2 == SExpr.sym main) && multipliesVar main arb e2))) = true
              rw [hd]
              simp
      | fn g l =>
          rcases List.mem_cons.mp hsubmem with heq | hmem
          · exact absurd heq (by simp)
          · obtain ⟨c, hc, hsubc⟩ := (mem_preorderL _ l).mp hmem
            have hsize : sizeOf c < N := by
              have h1 := List.sizeOf_lt_of_mem hc
              have h2 : sizeOf (SExpr.fn g l) = 1 + sizeOf g + sizeOf l := by
                simp
              omega
            have hcanc : canonE c = true := canonL_mem l c hc hcanon
            have hspecc :=
              specMultiplies_of_node main arb c gs u v hsubc hu hqual hv hmain
            have hmv := spec_imp_mv N c hsize hcanc main arb hspecc
            have hsym := hasSym_main_of_sub main N c hsize gs u v hsubc hv hmain
            have hne := ne_sym_of_mul_mem_preorder c gs main hsubc
            have hlist := mvList_of_descend main arb l c hc hmv hsym hne
            show (nodeHit main arb (.fn g l) l || mvList main arb l) = true
            rw [hlist, Bool.or_true]

/-- C9 amended: the structural predicate of the spec is *sufficient*: on a
canonical parsed expression, every parameter that multiplies (directly or
through a power, at a distinct factor position of some product node) a
sub-expression containing the independent variable receives default `1.0`.
The converse direction of the claim is false — see the counterexample. -/
theorem c9_default_amended (e : SExpr) (main arb : String)
    (hcanon : canonE e = true) (hspec : specMultiplies main arb e = true) :
    defaultValue ⟨e, main⟩ arb = 1 := by
  have hmv : multipliesVar main arb e = true :=
    spec_imp_mv (sizeOf e + 1) e (by omega) hcanon main arb hspec
  simp [defaultValue, hmv]

/-- C9 amended witness: the parameter `a` of `a*x` multiplies `x` and
receives default `1.0`. -/
theorem c9_default_amended_witness :
    defaultValue ⟨.mul [.sym "a", .sym "x"], "x"⟩ "a" = 1 :=
  c9_default_amended (.mul [.sym "a", .sym "x"]) "x" "a" (by decide) (by decide)

/-- C9 counterexample: for the canonical parsed expression
`d*a**x + a**z + d*w*a**(x+z)` (which contains the independent variable
`x`), `get_default_values` assigns `1.0` to the parameter `a`, yet `a`
multiplies no sub-expression containing `x` at a distinct factor position
of any product node (`specMultiplies` is false): inside `multiplies_var`,
sympy merges `(d*a**x)*(a**z)` into `d*a**(x+z)`, whose factors happen to
occur in the unrelated third summand, so `expr.has(arg1*arg2)` succeeds.
The claimed "1.0 exactly when the parameter multiplies such a
sub-expression" is therefore false in the only-if direction. -/
theorem c9_counterexample :
    defaultValue ⟨c9expr, "x"⟩ "a" = 1 ∧
    specMultiplies "x" "a" c9expr = false ∧
    canonE c9expr = true ∧
    hasSym "x" c9expr = true := by
  refine ⟨?_, by decide, by decide, by decide⟩
  have h : multipliesVar "x" "a" c9expr = true := by decide
  simp [defaultValue, h]

end RealFourier
